import Mathlib

/-!
# Verification of the synless structural editor core

Shallow embedding of the parts of the repository that the claims concern:

* `Forestlib` — the forest crate (`src/forest/src/lib.rs`): an arena of
  branch/leaf nodes with parent/child links and a roots list.
* `Pane` — `proportionally_divide` from `src/pretty/src/pane.rs`.
* `Synless` — the `tree::Location` cursor (`src/src/tree/location.rs`)
  over a storage model of the (absent) `tree::node` module, and a
  command-engine model of the (absent) `editor` crate.

Machine integers (`usize`) are modelled as `Nat`; all the arithmetic the
claims touch stays far below overflow, and Rust panics/aborts are modelled
as `Option`/`Except` failures.
-/

namespace Forestlib

/-! ## Association-list arena

`generational_arena::Arena` is modelled as an association list from `Nat`
indices to node contents; fresh indices come from a counter, and indices are
never reused, which matches the observable behaviour of generational indices
(a handle to a removed entry stays invalid forever). -/

/-- Look up a key in an association list (first match). -/
def lookupA {α : Type} (a : List (Nat × α)) (k : Nat) : Option α :=
  match a with
  | [] => none
  | (k', v) :: rest => if k' = k then some v else lookupA rest k

/-- Remove the (first) entry with the given key. -/
def removeA {α : Type} (a : List (Nat × α)) (k : Nat) : List (Nat × α) :=
  match a with
  | [] => []
  | (k', v) :: rest => if k' = k then rest else (k', v) :: removeA rest k

/-- Replace the value at the given key (no-op when the key is absent). -/
def setA {α : Type} (a : List (Nat × α)) (k : Nat) (v : α) : List (Nat × α) :=
  match a with
  | [] => []
  | (k', v') :: rest => if k' = k then (k, v) :: rest else (k', v') :: setA rest k v

theorem lookupA_isSome_iff {α : Type} (a : List (Nat × α)) (k : Nat) :
    (lookupA a k).isSome ↔ k ∈ a.map Prod.fst := by
  induction a with
  | nil => simp [lookupA]
  | cons hd tl ih =>
      obtain ⟨k', v⟩ := hd
      by_cases h : k' = k
      · subst h; simp [lookupA]
      · rw [List.map_cons, List.mem_cons]
        simp only [lookupA, if_neg h, ih]
        constructor
        · exact Or.inr
        · rintro (rfl | hm)
          · exact absurd rfl h
          · exact hm

theorem lookupA_eq_none_iff {α : Type} (a : List (Nat × α)) (k : Nat) :
    lookupA a k = none ↔ k ∉ a.map Prod.fst := by
  rw [← lookupA_isSome_iff]
  cases lookupA a k <;> simp

theorem removeA_length_lt {α : Type} (a : List (Nat × α)) (k : Nat)
    (h : (lookupA a k).isSome) : (removeA a k).length < a.length := by
  induction a with
  | nil => simp [lookupA] at h
  | cons hd tl ih =>
      obtain ⟨k', v⟩ := hd
      by_cases hk : k' = k
      · simp [removeA, hk]
      · simp only [lookupA, hk, if_false] at h
        simp only [removeA, hk, if_false, List.length_cons]
        exact Nat.succ_lt_succ (ih h)

theorem lookupA_removeA_ne {α : Type} (a : List (Nat × α)) (k m : Nat)
    (hne : m ≠ k) : lookupA (removeA a k) m = lookupA a m := by
  induction a with
  | nil => rfl
  | cons hd tl ih =>
      obtain ⟨k', v⟩ := hd
      by_cases hk : k' = k
      · subst hk
        have h1 : removeA ((k', v) :: tl) k' = tl := by simp [removeA]
        rw [h1, lookupA, if_neg (fun h => hne h.symm)]
      · simp only [removeA, if_neg hk, lookupA]
        by_cases hm : k' = m
        · rw [if_pos hm, if_pos hm]
        · rw [if_neg hm, if_neg hm, ih]

theorem lookupA_removeA_self {α : Type} (a : List (Nat × α)) (k : Nat)
    (hnd : (a.map Prod.fst).Nodup) : lookupA (removeA a k) k = none := by
  induction a with
  | nil => simp [removeA, lookupA]
  | cons hd tl ih =>
      obtain ⟨k', v⟩ := hd
      simp only [List.map_cons, List.nodup_cons] at hnd
      by_cases hk : k' = k
      · subst hk
        simp only [removeA, if_pos rfl]
        rw [lookupA_eq_none_iff]
        exact hnd.1
      · simp [removeA, lookupA, hk, ih hnd.2]

theorem removeA_map_fst_sublist {α : Type} (a : List (Nat × α)) (k : Nat) :
    ((removeA a k).map Prod.fst).Sublist (a.map Prod.fst) := by
  induction a with
  | nil => simp [removeA]
  | cons hd tl ih =>
      obtain ⟨k', v⟩ := hd
      by_cases hk : k' = k
      · simpa [removeA, hk] using (List.sublist_cons_self _ _)
      · simpa [removeA, hk] using ih.cons₂ k'

theorem removeA_keys_nodup {α : Type} (a : List (Nat × α)) (k : Nat)
    (hnd : (a.map Prod.fst).Nodup) : ((removeA a k).map Prod.fst).Nodup :=
  (removeA_map_fst_sublist a k).nodup hnd

/-! ## The forest data model (`src/forest/src/lib.rs`) -/

/-- `NodeChildren<D, L>`: leaf payload or branch child list. -/
inductive NodeChildren (D L : Type) where
  | leaf (val : L)
  | branch (children : List Nat)
  deriving DecidableEq, Repr

/-- `NodeContents<D, L>`. -/
structure NodeContents (D L : Type) where
  parent : Option Nat
  data : D
  children : NodeChildren D L
  deriving DecidableEq, Repr

/-- `Forest<D, L>`: roots list plus arena. `nextIdx` is the allocator state. -/
structure Forest (D L : Type) where
  roots : List Nat
  arena : List (Nat × NodeContents D L)
  nextIdx : Nat
  deriving DecidableEq, Repr

namespace Forest

variable {D L : Type}

/-- `Forest::new`. -/
def new : Forest D L := ⟨[], [], 0⟩

/-- `Forest::new_leaf`: fresh root leaf node; returns the new node handle. -/
def newLeaf (f : Forest D L) (data : D) (val : L) : Nat × Forest D L :=
  let n := f.nextIdx
  (n, { roots := f.roots ++ [n]
        arena := f.arena ++ [(n, ⟨none, data, NodeChildren.leaf val⟩)]
        nextIdx := n + 1 })

/-- `Forest::new_branch`: fresh root branch node with no children. -/
def newBranch (f : Forest D L) (data : D) : Nat × Forest D L :=
  let n := f.nextIdx
  (n, { roots := f.roots ++ [n]
        arena := f.arena ++ [(n, ⟨none, data, NodeChildren.branch []⟩)]
        nextIdx := n + 1 })

/-- `Forest::get` (panics on a deleted node, modelled as `none`). -/
def get? (f : Forest D L) (n : Nat) : Option (NodeContents D L) :=
  lookupA f.arena n

/-- `Node::is_valid`. -/
def isValid (f : Forest D L) (n : Nat) : Bool :=
  (f.get? n).isSome

/-- `Node::parent` (the outer `Option` is the deleted-node panic). -/
def parent? (f : Forest D L) (n : Nat) : Option (Option Nat) :=
  (f.get? n).map (·.parent)

/-- The child list of a branch node (`Forest::children`; panics on leaves). -/
def children? (f : Forest D L) (n : Nat) : Option (List Nat) :=
  match f.get? n with
  | none => none
  | some c =>
      match c.children with
      | NodeChildren.leaf _ => none
      | NodeChildren.branch kids => some kids

/-- `Node::root`, by chasing parent links. The Rust loop diverges on a
cyclic forest; with fuel `arena.length + 1` the model returns `none`
exactly when the chain fails to reach a root within the number of live
nodes, which can only happen on a cycle or a dangling handle. -/
def rootFuel (f : Forest D L) : Nat → Nat → Option Nat
  | 0, _ => none
  | fuel + 1, n =>
      match f.get? n with
      | none => none
      | some c =>
          match c.parent with
          | none => some n
          | some p => rootFuel f fuel p

def root? (f : Forest D L) (n : Nat) : Option Nat :=
  rootFuel f (f.arena.length + 1) n

/-- `Forest::siblings`: the roots for a root node, else the parent's children. -/
def siblings? (f : Forest D L) (n : Nat) : Option (List Nat) := do
  let c ← f.get? n
  match c.parent with
  | none => some f.roots
  | some p => f.children? p

/-- `Forest::sibling_index` (`position` + `expect`). -/
def siblingIndex? (f : Forest D L) (n : Nat) : Option Nat := do
  let sibs ← f.siblings? n
  if n ∈ sibs then some (sibs.indexOf n) else none

/-- Write back the sibling list of `n` (the roots, or the parent's children):
this is the store composed with `Forest::siblings_mut`. -/
def setSiblings (f : Forest D L) (n : Nat) (sibs : List Nat) : Option (Forest D L) := do
  let c ← f.get? n
  match c.parent with
  | none => some { f with roots := sibs }
  | some p => do
      let pc ← f.get? p
      match pc.children with
      | NodeChildren.leaf _ => none
      | NodeChildren.branch _ =>
          some { f with arena := setA f.arena p { pc with children := NodeChildren.branch sibs } }

/-- Set the parent field of `n` (a `get_mut(n).parent = ...` store). -/
def setParent (f : Forest D L) (n : Nat) (p : Option Nat) : Option (Forest D L) := do
  let c ← f.get? n
  some { f with arena := setA f.arena n { c with parent := p } }

/-- `Node::detach`: remove from the parent's child list, clear the parent
link, and push onto the roots. A no-op on a root node. -/
def detach (f : Forest D L) (n : Nat) : Option (Forest D L) := do
  let c ← f.get? n
  match c.parent with
  | none => some f
  | some _ => do
      let i ← f.siblingIndex? n
      let sibs ← f.siblings? n
      let f1 ← f.setSiblings n (sibs.eraseIdx i)
      let f2 ← f1.setParent n none
      some { f2 with roots := f2.roots ++ [n] }

/-- Write back the child list of branch node `n` directly. -/
def setChildren (f : Forest D L) (n : Nat) (kids : List Nat) : Option (Forest D L) := do
  let c ← f.get? n
  match c.children with
  | NodeChildren.leaf _ => none
  | NodeChildren.branch _ =>
      some { f with arena := setA f.arena n { c with children := NodeChildren.branch kids } }

/-- `Node::insert_child`: panics (`none`) when the roots coincide
("cycle thwarted"), when the index is out of bounds, or when `self` is a
leaf. Otherwise removes `node` from its old sibling list, points its parent
at `self`, and inserts it at `childIndex`. -/
def insertChild (f : Forest D L) (self childIndex node : Nat) : Option (Forest D L) := do
  let rs ← f.root? self
  let rn ← f.root? node
  if rs = rn then none
  else do
    let i ← f.siblingIndex? node
    let sibs ← f.siblings? node
    let f1 ← f.setSiblings node (sibs.eraseIdx i)
    let f2 ← f1.setParent node (some self)
    let kids ← f2.children? self
    if childIndex ≤ kids.length then
      f2.setChildren self (kids.insertIdx childIndex node)
    else none

/-- `Node::swap`. Faithful to the source: there is **no** root/cycle check.
Steps, in source order: read both sibling indices and parents, then
`siblings_mut(self)[i] = other`, `siblings_mut(other)[j] = self`, then swap
the parent links. -/
def swap (f : Forest D L) (self other : Nat) : Option (Forest D L) := do
  let i ← f.siblingIndex? self
  let j ← f.siblingIndex? other
  let selfParent ← f.parent? self
  let otherParent ← f.parent? other
  let sibsSelf ← f.siblings? self
  let f1 ← f.setSiblings self (sibsSelf.set i other)
  let sibsOther ← f1.siblings? other
  let f2 ← f1.setSiblings other (sibsOther.set j self)
  let f3 ← f2.setParent self otherParent
  f3.setParent other selfParent

/-- The worklist of `Node::delete`: pop a node, panic (`none`) if it is
already gone, push its children, remove it from the arena. The Rust stack
pops from the vector's end and appends child lists at the end; the model
keeps the stack top at the list head, so children are pushed reversed
(the final arena does not depend on the order). -/
def deleteLoop : List (Nat × NodeContents D L) → List Nat → Option (List (Nat × NodeContents D L))
  | arena, [] => some arena
  | arena, n :: rest =>
      match h : lookupA arena n with
      | none => none
      | some c =>
          let newStack :=
            match c.children with
            | NodeChildren.leaf _ => rest
            | NodeChildren.branch kids => kids.reverse ++ rest
          deleteLoop (removeA arena n) newStack
  termination_by arena _ => arena.length
  decreasing_by
    exact removeA_length_lt arena n (by rw [h]; rfl)

/-- `Node::delete`: detach, drop from the roots, then run the worklist. -/
def delete (f : Forest D L) (n : Nat) : Option (Forest D L) := do
  let f1 ← f.detach n
  let f2 := { f1 with roots := f1.roots.filter (· ≠ n) }
  let arena' ← deleteLoop f2.arena [n]
  some { f2 with arena := arena' }

/-- Fuel-bounded list of descendants of `n` (including `n`), following
branch child lists. Fuel `arena.length + 1` covers every acyclic forest. -/
def descFuel (f : Forest D L) : Nat → Nat → List Nat
  | 0, _ => []
  | fuel + 1, n =>
      n :: ((match f.children? n with
             | some kids => kids
             | none => []).flatMap (descFuel f fuel))

end Forest

/-! ### The `Node::swap` counterexample (claims C1 and C10)

A two-node forest: branch `0` (data 10) with single child branch `1`
(data 20). `0.swap(1)` is an ancestor/descendant swap. The source performs
it without any root check. -/

/-- Roots `0` and `1`, then `0.insert_child(0, 1)`: the tree `0 ⊳ 1`. -/
def swapDemoTree : Option (Forest Nat Nat) :=
  (((Forest.new.newBranch 10).2.newBranch 20).2).insertChild 0 0 1

/-- The forest after `0.swap(1)` on the tree `0 ⊳ 1`. -/
def swapDemoAfter : Option (Forest Nat Nat) :=
  swapDemoTree.bind (fun f => f.swap 0 1)

end Forestlib

namespace Forestlib

/-- C1: "Every mutating tree operation preserves acyclicity … before any
insert or swap that would parent `m` under `n` the engine checks that `m`
and `n` have different roots … In particular, `Node::swap` on an
ancestor/descendant pair must not create a cycle."  The code violates this:
`Node::swap` performs no root check, and on the tree `0 ⊳ 1` the swap
`0.swap(1)` makes node `0` its own parent and its own child, so `0` is a
descendant of itself and `root(0)` no longer terminates (`root? = none`). -/
theorem c1_swap_creates_cycle_on_ancestor_descendant_pair :
    (swapDemoAfter.map fun f =>
        (f.parent? 0, f.children? 0, f.root? 0, f.isValid 0))
      = some (some (some 0), some [0], none, true) := by
  rfl

/-- C10: "Every public forest operation … preserves the root-list invariant:
… every valid node is a descendant of exactly one root."  The code violates
this through the unchecked `Node::swap`: after `0.swap(1)` on the tree
`0 ⊳ 1`, node `0` is still valid, the roots list is `[1]`, and the full
descendant list of the unique root `1` is `[1]`, which does not contain `0`
— so valid node `0` is a descendant of no root at all. -/
theorem c10_swap_breaks_root_reachability_invariant :
    (swapDemoAfter.map fun f =>
        (f.isValid 0, f.roots, f.roots.map (fun r => f.descFuel (f.arena.length + 1) r)))
      = some (true, [1], [[1]]) := by
  rfl

end Forestlib

namespace Pane

/-! ## `proportionally_divide` (`src/pretty/src/pane.rs`)

The Rust code sorts the enumerated remainders with the stable
`slice::sort_by(|(_, r1), (_, r2)| r2.cmp(r1))` (descending by remainder,
ties kept in index order). A stable sort's output is uniquely determined by
the input and the key order, so it is modelled by a stable insertion sort
with the same comparison. -/

/-- Stable descending insertion: keep walking past strictly larger
remainders, so an element inserted in front of its original successors goes
before any equal-remainder element. -/
def insertDesc (p : Nat × Nat) : List (Nat × Nat) → List (Nat × Nat)
  | [] => [p]
  | q :: qs => if p.2 < q.2 then q :: insertDesc p qs else p :: q :: qs

/-- Stable sort by descending second component (the remainder). -/
def sortDesc : List (Nat × Nat) → List (Nat × Nat)
  | [] => []
  | p :: ps => insertDesc p (sortDesc ps)

/-- `proportionally_divide(cookies, child_hungers)`. Returns `none` exactly
when the Rust code panics with an integer division by zero: a nonempty
hunger list summing to `0`. -/
def proportionallyDivide (cookies : Nat) (childHungers : List Nat) : Option (List Nat) :=
  let totalHunger := childHungers.sum
  if childHungers ≠ [] ∧ totalHunger = 0 then none
  else
    let cookieAllocation := childHungers.map (fun hunger => cookies * hunger / totalHunger)
    let allocatedCookies := cookieAllocation.sum
    let leftover := cookies - allocatedCookies
    let remainders := (childHungers.map (fun hunger => cookies * hunger % totalHunger)).enum
    some (((sortDesc remainders).take leftover).foldl
      (fun acc p => acc.set p.1 (acc.getD p.1 0 + 1)) cookieAllocation)

/-- Ceiling division on `Nat`: `⌈a / b⌉`. -/
def ceilDivNat (a b : Nat) : Nat := (a + b - 1) / b

end Pane

namespace Pane

/-- The strict order that a stable descending sort of index/remainder pairs
realises: larger remainder first, ties by smaller index first. -/
def Before (a b : Nat × Nat) : Prop :=
  b.2 < a.2 ∨ (a.2 = b.2 ∧ a.1 < b.1)

theorem insertDesc_perm (p : Nat × Nat) (l : List (Nat × Nat)) :
    (insertDesc p l).Perm (p :: l) := by
  induction l with
  | nil => simp [insertDesc]
  | cons q qs ih =>
      by_cases h : p.2 < q.2
      · simp only [insertDesc, if_pos h]
        exact ((ih.cons q).trans (List.Perm.swap p q qs))
      · simp [insertDesc, if_neg h]

theorem sortDesc_perm (l : List (Nat × Nat)) : (sortDesc l).Perm l := by
  induction l with
  | nil => simp [sortDesc]
  | cons p ps ih =>
      exact (insertDesc_perm p (sortDesc ps)).trans (ih.cons p)

theorem insertDesc_pairwise (p : Nat × Nat) (l : List (Nat × Nat))
    (hl : l.Pairwise Before) (hp : ∀ q ∈ l, p.1 < q.1) :
    (insertDesc p l).Pairwise Before := by
  induction l with
  | nil => simp [insertDesc, List.pairwise_singleton]
  | cons q qs ih =>
      rw [List.pairwise_cons] at hl
      by_cases h : p.2 < q.2
      · simp only [insertDesc, if_pos h]
        rw [List.pairwise_cons]
        refine ⟨?_, ih hl.2 (fun r hr => hp r (List.mem_cons_of_mem q hr))⟩
        intro r hr
        have : r ∈ p :: qs := (insertDesc_perm p qs).mem_iff.mp hr
        rcases List.mem_cons.mp this with rfl | hrq
        · exact Or.inl h
        · exact hl.1 r hrq
      · simp only [insertDesc, if_neg h]
        rw [List.pairwise_cons]
        refine ⟨?_, List.pairwise_cons.mpr hl⟩
        intro r hr
        rcases List.mem_cons.mp hr with rfl | hrq
        · rcases Nat.lt_or_ge r.2 p.2 with h2 | h2
          · exact Or.inl h2
          · exact Or.inr ⟨by omega, hp r (List.mem_cons_self _ _)⟩
        · have hqr := hl.1 r hrq
          rcases hqr with h2 | h2
          · exact Or.inl (by omega)
          · rcases Nat.lt_or_ge r.2 p.2 with h3 | h3
            · exact Or.inl h3
            · exact Or.inr ⟨by omega, hp r (List.mem_cons_of_mem q hrq)⟩

theorem sortDesc_pairwise (l : List (Nat × Nat))
    (hl : l.Pairwise (fun a b => a.1 < b.1)) :
    (sortDesc l).Pairwise Before := by
  induction l with
  | nil => simp [sortDesc]
  | cons p ps ih =>
      rw [List.pairwise_cons] at hl
      refine insertDesc_pairwise p (sortDesc ps) (ih hl.2) ?_
      intro q hq
      exact hl.1 q ((sortDesc_perm ps).mem_iff.mp hq)

end Pane

namespace Pane

theorem sum_div_add_mod (T C : Nat) (w : List Nat) :
    T * (w.map (fun h => C * h / T)).sum + (w.map (fun h => C * h % T)).sum
      = C * w.sum := by
  induction w with
  | nil => simp
  | cons h w ih =>
      simp only [List.map_cons, List.sum_cons, Nat.mul_add]
      have hdm : T * (C * h / T) + C * h % T = C * h := Nat.div_add_mod (C * h) T
      omega

theorem sum_le_countP_mul (l : List Nat) (m : Nat) (hm : ∀ x ∈ l, x ≤ m) :
    l.sum ≤ (l.countP (fun x => decide (x ≠ 0))) * m := by
  induction l with
  | nil => simp
  | cons x xs ih =>
      have hx : x ≤ m := hm x (List.mem_cons_self _ _)
      have ihs : xs.sum ≤ (xs.countP (fun x => decide (x ≠ 0))) * m :=
        ih (fun y hy => hm y (List.mem_cons_of_mem x hy))
      by_cases h0 : x = 0
      · subst h0
        simpa [List.countP_cons] using ihs
      · rw [List.sum_cons, List.countP_cons, if_pos (by simp [h0])]
        calc x + xs.sum ≤ m + (xs.countP (fun x => decide (x ≠ 0))) * m := by omega
        _ = ((xs.countP (fun x => decide (x ≠ 0))) + 1) * m := by ring
end Pane

namespace Pane

theorem getD_set_self (l : List Nat) (i v : Nat) (h : i < l.length) :
    (l.set i v).getD i 0 = v := by
  induction l generalizing i with
  | nil => simp at h
  | cons x xs ih =>
      cases i with
      | zero => simp
      | succ n =>
          simp only [List.set_cons_succ, List.getD_cons_succ]
          exact ih n (by simpa using h)

theorem getD_set_ne (l : List Nat) (i j v : Nat) (h : j ≠ i) :
    (l.set i v).getD j 0 = l.getD j 0 := by
  induction l generalizing i j with
  | nil => simp [List.getD]
  | cons x xs ih =>
      cases i with
      | zero =>
          cases j with
          | zero => exact absurd rfl h
          | succ m => simp
      | succ n =>
          cases j with
          | zero => simp
          | succ m =>
              simp only [List.set_cons_succ, List.getD_cons_succ]
              exact ih n m (fun hh => h (by omega))

theorem sum_set_incr (l : List Nat) (i : Nat) (h : i < l.length) :
    (l.set i (l.getD i 0 + 1)).sum = l.sum + 1 := by
  induction l generalizing i with
  | nil => simp at h
  | cons x xs ih =>
      cases i with
      | zero => simp [Nat.add_comm, Nat.add_assoc, Nat.add_left_comm]
      | succ n =>
          simp only [List.set_cons_succ, List.getD_cons_succ, List.sum_cons]
          rw [ih n (by simpa using h)]
          omega

/-- The cookie hand-out loop `for_each(|(i, _)| cookie_allocation[i] += 1)`. -/
def handOut (B : List (Nat × Nat)) (acc : List Nat) : List Nat :=
  B.foldl (fun acc p => acc.set p.1 (acc.getD p.1 0 + 1)) acc

theorem handOut_length (B : List (Nat × Nat)) (acc : List Nat) :
    (handOut B acc).length = acc.length := by
  induction B generalizing acc with
  | nil => rfl
  | cons p B ih => simp only [handOut, List.foldl_cons] at *; rw [ih, List.length_set]

theorem handOut_sum (B : List (Nat × Nat)) (acc : List Nat)
    (hlt : ∀ p ∈ B, p.1 < acc.length) :
    (handOut B acc).sum = acc.sum + B.length := by
  induction B generalizing acc with
  | nil => rfl
  | cons p B ih =>
      simp only [handOut, List.foldl_cons] at *
      rw [ih _ (fun q hq => by
        rw [List.length_set]; exact hlt q (List.mem_cons_of_mem p hq))]
      rw [sum_set_incr acc p.1 (hlt p (List.mem_cons_self _ _))]
      simp [Nat.add_comm, Nat.add_assoc, Nat.add_left_comm]

theorem handOut_getD (B : List (Nat × Nat)) (acc : List Nat)
    (hnd : (B.map Prod.fst).Nodup) (hlt : ∀ p ∈ B, p.1 < acc.length) (i : Nat) :
    (handOut B acc).getD i 0
      = acc.getD i 0 + (if i ∈ B.map Prod.fst then 1 else 0) := by
  induction B generalizing acc with
  | nil => simp [handOut]
  | cons p B ih =>
      simp only [List.map_cons, List.nodup_cons] at hnd
      have hlen : (acc.set p.1 (acc.getD p.1 0 + 1)).length = acc.length :=
        List.length_set ..
      have hlt' : ∀ q ∈ B, q.1 < (acc.set p.1 (acc.getD p.1 0 + 1)).length := by
        intro q hq; rw [hlen]; exact hlt q (List.mem_cons_of_mem p hq)
      simp only [handOut, List.foldl_cons] at *
      rw [ih _ hnd.2 hlt']
      by_cases hip : i = p.1
      · subst hip
        rw [getD_set_self acc p.1 _ (hlt p (List.mem_cons_self _ _))]
        have hni : p.1 ∉ B.map Prod.fst := hnd.1
        simp [hni]
      · rw [getD_set_ne acc p.1 i _ hip]
        have : (i ∈ p.1 :: B.map Prod.fst) ↔ i ∈ B.map Prod.fst := by
          simp [hip]
        simp only [List.mem_cons] at *
        by_cases him : i ∈ B.map Prod.fst <;> simp [him, hip]

end Pane

namespace Pane

theorem ceilDivNat_eq (a T : Nat) (hT : 0 < T) :
    ceilDivNat a T = a / T + (if a % T = 0 then 0 else 1) := by
  have hdm := Nat.div_add_mod a T
  set q := a / T with hq
  set r := a % T with hr
  have hrlt : r < T := Nat.mod_lt _ hT
  by_cases h0 : r = 0
  · have ha : a + T - 1 = T * q + (T - 1) := by omega
    rw [ceilDivNat, ha, Nat.mul_add_div hT, Nat.div_eq_of_lt (by omega)]
    simp [h0]
  · have ha : a + T - 1 = T * (q + 1) + (r - 1) := by
      have : T * (q + 1) = T * q + T := by ring
      omega
    rw [ceilDivNat, ha, Nat.mul_add_div hT, Nat.div_eq_of_lt (by omega)]
    simp [h0]

theorem proportionallyDivide_spec (C : Nat) (w : List Nat) (hT : 0 < w.sum) :
    ∃ a, proportionallyDivide C w = some a ∧
      a.length = w.length ∧
      a.sum = C ∧
      (∀ i, i < w.length →
          C * w.getD i 0 / w.sum ≤ a.getD i 0 ∧
          a.getD i 0 ≤ ceilDivNat (C * w.getD i 0) w.sum) ∧
      (∀ i j, i < j → j < w.length →
          C * w.getD i 0 % w.sum = C * w.getD j 0 % w.sum →
          a.getD j 0 = C * w.getD j 0 / w.sum + 1 →
          a.getD i 0 = C * w.getD i 0 / w.sum + 1) := by
  set T := w.sum with hTdef
  set n := w.length with hn
  set floors := w.map (fun h => C * h / T) with hfloors
  set rs := w.map (fun h => C * h % T) with hrs
  set alloc := floors.sum with halloc_def
  set leftover := C - alloc with hleftover
  set E := rs.enum with hE
  set S := sortDesc E with hS
  set B := S.take leftover with hB
  have hguard : ¬(w ≠ [] ∧ T = 0) := fun h => by omega
  have heq : proportionallyDivide C w = some (handOut B floors) := by
    simp only [proportionallyDivide, handOut]
    rw [if_neg hguard]
  -- basic lengths
  have hlen_floors : floors.length = n := by simp [hfloors, hn]
  have hlen_rs : rs.length = n := by simp [hrs, hn]
  have hlen_E : E.length = n := by simp [hE, hlen_rs]
  have hSperm : S.Perm E := sortDesc_perm E
  have hlen_S : S.length = n := hSperm.length_eq.trans hlen_E
  -- arithmetic on the division/remainder
  have hdm : T * alloc + rs.sum = C * T := by
    simpa [hfloors, hrs, halloc_def, hTdef] using sum_div_add_mod T C w
  have halloc_le : alloc ≤ C := by
    have h1 : T * alloc ≤ T * C := by
      calc T * alloc ≤ T * alloc + rs.sum := Nat.le_add_right _ _
      _ = C * T := hdm
      _ = T * C := Nat.mul_comm _ _
    exact Nat.le_of_mul_le_mul_left h1 hT
  have hrs_sum : rs.sum = leftover * T := by
    have h1 : leftover * T + alloc * T = C * T := by
      rw [← Nat.add_mul]
      congr 1
      omega
    have h2 : T * alloc = alloc * T := Nat.mul_comm _ _
    omega
  have hrlt : ∀ x ∈ rs, x < T := by
    intro x hx
    rw [hrs] at hx
    obtain ⟨h, _, rfl⟩ := List.mem_map.mp hx
    exact Nat.mod_lt _ hT
  have hn_pos : 0 < n := by
    rcases w with _ | ⟨x, xs⟩
    · simp [hTdef] at hT
    · simp [hn]
  have hleft_le : leftover ≤ n := by
    by_contra hcon
    push_neg at hcon
    have h1 : rs.sum ≤ rs.length • (T - 1) :=
      List.sum_le_card_nsmul rs (T - 1) (fun x hx => by have := hrlt x hx; omega)
    rw [hlen_rs, smul_eq_mul] at h1
    have hT1 : T - 1 + 1 = T := by omega
    have h2 : n * (T - 1) + n = n * T := by
      calc n * (T - 1) + n = n * (T - 1 + 1) := by ring
      _ = n * T := by rw [hT1]
    have h3 : (n + 1) * T ≤ leftover * T := Nat.mul_le_mul_right T (by omega)
    have h4 : (n + 1) * T = n * T + T := by ring
    omega
  have hlen_B : B.length = leftover := by
    rw [hB, List.length_take, hlen_S]
    omega
  -- every element of S is an enumerated remainder pair
  have hSelem : ∀ p ∈ S, p.1 < n ∧ p.2 = rs.getD p.1 0 := by
    intro p hp
    have hpE : p ∈ E := hSperm.mem_iff.mp hp
    rw [hE] at hpE
    have := List.mk_mem_enum_iff_getElem?.mp (by exact hpE)
    have hlt : p.1 < rs.length := by
      by_contra hcon
      push_neg at hcon
      rw [List.getElem?_eq_none hcon] at this
      exact Option.noConfusion this
    refine ⟨by omega, ?_⟩
    rw [List.getD_eq_getElem rs 0 hlt]
    rw [List.getElem?_eq_getElem hlt] at this
    exact (Option.some_inj.mp this).symm
  -- pairwise order on S
  have hE_pw : E.Pairwise (fun a b => a.1 < b.1) := by
    have h1 : (E.map Prod.fst).Pairwise (· < ·) := by
      rw [hE, List.enum_map_fst]
      exact List.pairwise_lt_range _
    rw [List.pairwise_map] at h1
    exact h1
  have hS_pw : S.Pairwise Before := sortDesc_pairwise E hE_pw
  have hS_fst_nodup : (S.map Prod.fst).Nodup := by
    have h1 : (E.map Prod.fst).Nodup := by rw [hE]; exact List.nodup_enum_map_fst _
    exact ((hSperm.map Prod.fst).nodup_iff).mpr h1
  have hB_sub : B.Sublist S := by rw [hB]; exact List.take_sublist _ _
  have hB_fst_nodup : (B.map Prod.fst).Nodup :=
    ((hB_sub.map Prod.fst).nodup hS_fst_nodup)
  have hB_lt : ∀ p ∈ B, p.1 < floors.length := by
    intro p hp
    rw [hlen_floors]
    exact (hSelem p (hB_sub.mem hp)).1
  -- the result vector
  set res := handOut B floors with hres
  have hres_len : res.length = n := by rw [hres, handOut_length, hlen_floors]
  have hres_sum : res.sum = C := by
    rw [hres, handOut_sum B floors hB_lt, hlen_B]
    have hfs : floors.sum = alloc := halloc_def.symm
    omega
  have hres_getD : ∀ i, res.getD i 0
      = floors.getD i 0 + (if i ∈ B.map Prod.fst then 1 else 0) := by
    intro i
    rw [hres]
    exact handOut_getD B floors hB_fst_nodup hB_lt i
  have hfloors_getD : ∀ i, i < n → floors.getD i 0 = C * w.getD i 0 / T := by
    intro i hi
    rw [hfloors]
    rw [List.getD_eq_getElem _ 0 (by simpa [hn] using hi),
        List.getD_eq_getElem _ 0 (by simpa [hn] using hi), List.getElem_map]
  have hrs_getD : ∀ i, i < n → rs.getD i 0 = C * w.getD i 0 % T := by
    intro i hi
    rw [hrs]
    rw [List.getD_eq_getElem _ 0 (by simpa [hn] using hi),
        List.getD_eq_getElem _ 0 (by simpa [hn] using hi), List.getElem_map]
  -- pairs with index in B.map fst are exactly (i, rs_i)
  have hmemB : ∀ i, i ∈ B.map Prod.fst → (i, rs.getD i 0) ∈ B := by
    intro i hi
    obtain ⟨p, hpB, hp1⟩ := List.mem_map.mp hi
    have := hSelem p (hB_sub.mem hpB)
    have hp : p = (i, rs.getD i 0) := by
      obtain ⟨p1, p2⟩ := p
      simp only at hp1 this
      rw [hp1] at this ⊢
      rw [this.2]
    rwa [hp] at hpB
  have hmemE : ∀ i, i < n → (i, rs.getD i 0) ∈ E := by
    intro i hi
    rw [hE]
    refine List.mk_mem_enum_iff_getElem?.mpr ?_
    have hlt : i < rs.length := by omega
    rw [List.getElem?_eq_getElem hlt, List.getD_eq_getElem rs 0 hlt]
  -- a bonus only ever goes to a nonzero remainder
  have hbonus_pos : ∀ i, i ∈ B.map Prod.fst → rs.getD i 0 ≠ 0 := by
    intro i hiB h0
    have hiBmem : (i, rs.getD i 0) ∈ B := hmemB i hiB
    rw [h0] at hiBmem
    have hsplit : S = B ++ S.drop leftover := by
      rw [hB, List.take_append_drop]
    have hcross : ∀ a ∈ B, ∀ b ∈ S.drop leftover, Before a b := by
      have := hS_pw
      rw [hsplit] at this
      exact (List.pairwise_append.mp this).2.2
    -- every element after the bonus prefix has remainder 0
    have hdrop0 : ∀ b ∈ S.drop leftover, b.2 = 0 := by
      intro b hb
      have := hcross (i, 0) hiBmem b hb
      rcases this with h | h
      · omega
      · exact h.1.symm
    -- count of positive remainders is below leftover
    set pos := fun p : Nat × Nat => decide (p.2 ≠ 0) with hpos
    have hcount_drop : (S.drop leftover).countP pos = 0 := by
      rw [List.countP_eq_zero]
      intro b hb
      simp [hpos, hdrop0 b hb]
    have hcount_B_lt : B.countP pos < B.length := by
      rcases Nat.lt_or_ge (B.countP pos) B.length with h | h
      · exact h
      · exfalso
        have hle : B.countP pos ≤ B.length := List.countP_le_length _
        have heqc : B.countP pos = B.length := by omega
        have := List.countP_eq_length.mp heqc (i, 0) hiBmem
        simp [hpos] at this
    have hcount_S : S.countP pos = B.countP pos := by
      conv_lhs => rw [hsplit]
      rw [List.countP_append, hcount_drop]
      omega
    have hcount_rs : rs.countP (fun x => decide (x ≠ 0)) = S.countP pos := by
      have h1 : S.countP pos = E.countP pos := hSperm.countP_eq _
      have h2 : E.countP pos = rs.countP (fun x => decide (x ≠ 0)) := by
        have h3 : E.map Prod.snd = rs := by rw [hE]; exact List.enum_map_snd _
        rw [← h3, List.countP_map]
        rfl
      omega
    have hsum_le : rs.sum ≤ (rs.countP (fun x => decide (x ≠ 0))) * (T - 1) :=
      sum_le_countP_mul rs (T - 1) (fun x hx => by have := hrlt x hx; omega)
    -- leftover * T ≤ (leftover - 1) * (T - 1): impossible for T ≥ 1, leftover ≥ 1
    have hleft_pos : 0 < leftover := by
      have : B ≠ [] := fun h => by rw [h] at hiBmem; exact absurd hiBmem (List.not_mem_nil _)
      have : 0 < B.length := List.length_pos.mpr this
      omega
    have hcount_le : rs.countP (fun x => decide (x ≠ 0)) ≤ leftover - 1 := by
      rw [hcount_rs, hcount_S]
      omega
    have h1 : rs.sum ≤ (leftover - 1) * (T - 1) :=
      le_trans hsum_le (Nat.mul_le_mul_right _ hcount_le)
    have hl1 : leftover - 1 + 1 = leftover := by omega
    have hT1 : T - 1 + 1 = T := by omega
    have h2 : (leftover - 1) * (T - 1) + (T - 1) = leftover * (T - 1) := by
      calc (leftover - 1) * (T - 1) + (T - 1) = (leftover - 1 + 1) * (T - 1) := by ring
      _ = leftover * (T - 1) := by rw [hl1]
    have h3 : leftover * (T - 1) + leftover = leftover * T := by
      calc leftover * (T - 1) + leftover = leftover * (T - 1 + 1) := by ring
      _ = leftover * T := by rw [hT1]
    omega
  refine ⟨handOut B floors, heq, by rw [← hres]; exact hres_len.trans hn.symm, by rw [← hres]; exact hres_sum, ?_, ?_⟩
  · -- bounds
    intro i hi
    rw [← hres, ← hn] at *
    have hgd := hres_getD i
    have hfl := hfloors_getD i hi
    constructor
    · rw [hgd, hfl]
      omega
    · rw [hgd, hfl]
      rw [ceilDivNat_eq _ _ hT]
      by_cases hib : i ∈ B.map Prod.fst
      · have hne0 : ¬(C * w.getD i 0 % T = 0) := by
          rw [← hrs_getD i hi]
          exact hbonus_pos i hib
        rw [if_pos hib, if_neg hne0]
      · rw [if_neg hib]
        omega
  · -- tie-breaking in favour of the lowest index
    intro i j hij hj heqr hja
    have hi : i < n := by omega
    have hjn : j < n := by omega
    rw [← hres] at *
    have hgdj := hres_getD j
    have hflj := hfloors_getD j hjn
    have hjB : j ∈ B.map Prod.fst := by
      by_contra hcon
      rw [hgdj, hflj] at hja
      simp [hcon] at hja
    have hgdi := hres_getD i
    have hfli := hfloors_getD i hi
    have hiB : i ∈ B.map Prod.fst := by
      by_contra hcon
      -- then (i, rs_i) sits in the dropped suffix, after (j, rs_j): contradiction
      have hiS : (i, rs.getD i 0) ∈ S := hSperm.mem_iff.mpr (hmemE i hi)
      have hsplit : S = B ++ S.drop leftover := by
        rw [hB, List.take_append_drop]
      have hiD : (i, rs.getD i 0) ∈ S.drop leftover := by
        rw [hsplit] at hiS
        rcases List.mem_append.mp hiS with h | h
        · exact absurd (List.mem_map.mpr ⟨_, h, rfl⟩) hcon
        · exact h
      have hjBmem : (j, rs.getD j 0) ∈ B := hmemB j hjB
      have hcross : ∀ a ∈ B, ∀ b ∈ S.drop leftover, Before a b := by
        have := hS_pw
        rw [hsplit] at this
        exact (List.pairwise_append.mp this).2.2
      have := hcross _ hjBmem _ hiD
      have hri : rs.getD i 0 = C * w.getD i 0 % T := hrs_getD i hi
      have hrj : rs.getD j 0 = C * w.getD j 0 % T := hrs_getD j hjn
      rcases this with h | h
      · simp only at h
        omega
      · simp only at h
        omega
    rw [hgdi, hfli, if_pos hiB]

end Pane

namespace Pane

/-- C3 counterexample. The claim quantifies over *every* weight list, but at
`C = 1`, `w = []` the code returns the empty allocation, whose sum is `0`,
not `C = 1` (and for a nonempty all-zero `w` the Rust code panics with a
division by zero). -/
theorem c3_empty_weight_list_breaks_sum :
    proportionallyDivide 1 [] = some [] ∧ ([] : List Nat).sum ≠ 1 := by
  constructor
  · rfl
  · decide

/-- C3 (amended: the weight list must have positive total weight, which the
counterexample forces): `proportionally_divide(C, w)` returns `a` with
`Σa = C`, `floor(C·wᵢ/Σw) ≤ aᵢ ≤ ceil(C·wᵢ/Σw)` for every index, ties in
the fractional remainder broken in favour of the lowest index; and the four
concrete examples from the spec hold. -/
theorem c3_proportionally_divide_fair (C : Nat) (w : List Nat) (hT : 0 < w.sum) :
    (∃ a, proportionallyDivide C w = some a ∧
      a.length = w.length ∧
      a.sum = C ∧
      (∀ i, i < w.length →
          C * w.getD i 0 / w.sum ≤ a.getD i 0 ∧
          a.getD i 0 ≤ ceilDivNat (C * w.getD i 0) w.sum) ∧
      (∀ i j, i < j → j < w.length →
          C * w.getD i 0 % w.sum = C * w.getD j 0 % w.sum →
          a.getD j 0 = C * w.getD j 0 / w.sum + 1 →
          a.getD i 0 = C * w.getD i 0 / w.sum + 1)) ∧
    proportionallyDivide 0 [1, 1] = some [0, 0] ∧
    proportionallyDivide 1 [1, 1] = some [1, 0] ∧
    proportionallyDivide 5 [12, 10, 11] = some [2, 1, 2] ∧
    proportionallyDivide 61 [1, 2, 3] = some [10, 20, 31] := by
  refine ⟨proportionallyDivide_spec C w hT, ?_, ?_, ?_, ?_⟩ <;> rfl

end Pane

/-- Witness for the C3 theorem at `C = 5`, `w = [12, 10, 11]`
(total weight `33 > 0`). -/
theorem c3_fairness_witness :
    (∃ a, Pane.proportionallyDivide 5 [12, 10, 11] = some a ∧
      a.length = ([12, 10, 11] : List Nat).length ∧
      a.sum = 5 ∧
      (∀ i, i < ([12, 10, 11] : List Nat).length →
          5 * ([12, 10, 11] : List Nat).getD i 0 / ([12, 10, 11] : List Nat).sum ≤ a.getD i 0 ∧
          a.getD i 0 ≤ Pane.ceilDivNat (5 * ([12, 10, 11] : List Nat).getD i 0) ([12, 10, 11] : List Nat).sum) ∧
      (∀ i j, i < j → j < ([12, 10, 11] : List Nat).length →
          5 * ([12, 10, 11] : List Nat).getD i 0 % ([12, 10, 11] : List Nat).sum
            = 5 * ([12, 10, 11] : List Nat).getD j 0 % ([12, 10, 11] : List Nat).sum →
          a.getD j 0 = 5 * ([12, 10, 11] : List Nat).getD j 0 / ([12, 10, 11] : List Nat).sum + 1 →
          a.getD i 0 = 5 * ([12, 10, 11] : List Nat).getD i 0 / ([12, 10, 11] : List Nat).sum + 1)) ∧
    Pane.proportionallyDivide 0 [1, 1] = some [0, 0] ∧
    Pane.proportionallyDivide 1 [1, 1] = some [1, 0] ∧
    Pane.proportionallyDivide 5 [12, 10, 11] = some [2, 1, 2] ∧
    Pane.proportionallyDivide 61 [1, 2, 3] = some [10, 20, 31] :=
  Pane.c3_proportionally_divide_fair 5 [12, 10, 11] (by decide)

namespace Forestlib

/-- The child list of node contents (empty for leaves). -/
def childrenOf {D L : Type} (c : NodeContents D L) : List Nat :=
  match c.children with
  | NodeChildren.leaf _ => []
  | NodeChildren.branch kids => kids

/-- `m` is `n` or a descendant of `n` through branch child links, read in
the arena `A`. -/
inductive DescA {D L : Type} (A : List (Nat × NodeContents D L)) : Nat → Nat → Prop
  | refl (n : Nat) : DescA A n n
  | step {p c m : Nat} (cts : NodeContents D L) (hp : lookupA A p = some cts)
      (hc : c ∈ childrenOf cts) (hd : DescA A c m) : DescA A p m

theorem lookupA_setA_self {α : Type} (a : List (Nat × α)) (k : Nat) (v : α)
    (h : (lookupA a k).isSome) : lookupA (setA a k v) k = some v := by
  induction a with
  | nil => simp [lookupA] at h
  | cons hd tl ih =>
      obtain ⟨k', v'⟩ := hd
      by_cases hk : k' = k
      · subst hk
        simp [setA, lookupA]
      · simp only [lookupA, if_neg hk] at h
        simp only [setA, if_neg hk, lookupA, if_neg hk]
        exact ih h

theorem lookupA_setA_ne {α : Type} (a : List (Nat × α)) (k m : Nat) (v : α)
    (hne : m ≠ k) : lookupA (setA a k v) m = lookupA a m := by
  induction a with
  | nil => rfl
  | cons hd tl ih =>
      obtain ⟨k', v'⟩ := hd
      by_cases hk : k' = k
      · subst hk
        simp only [setA, if_pos rfl, lookupA]
        rw [if_neg (fun h => hne h.symm), if_neg (fun h => hne h.symm)]
      · simp only [setA, if_neg hk, lookupA]
        by_cases hm : k' = m
        · rw [if_pos hm, if_pos hm]
        · rw [if_neg hm, if_neg hm, ih]

theorem setA_map_fst {α : Type} (a : List (Nat × α)) (k : Nat) (v : α) :
    (setA a k v).map Prod.fst = a.map Prod.fst := by
  induction a with
  | nil => rfl
  | cons hd tl ih =>
      obtain ⟨k', v'⟩ := hd
      by_cases hk : k' = k
      · subst hk; simp [setA]
      · simp [setA, hk, ih]

theorem mem_setA {α : Type} {a : List (Nat × α)} {k : Nat} {v : α} {e : Nat × α}
    (h : e ∈ setA a k v) : e ∈ a ∨ e = (k, v) := by
  induction a with
  | nil => simp [setA] at h
  | cons hd tl ih =>
      obtain ⟨k', v'⟩ := hd
      by_cases hk : k' = k
      · subst hk
        simp only [setA, if_pos rfl] at h
        rcases List.mem_cons.mp h with rfl | h2
        · exact Or.inr rfl
        · exact Or.inl (List.mem_cons_of_mem _ h2)
      · simp only [setA, if_neg hk] at h
        rcases List.mem_cons.mp h with rfl | h2
        · exact Or.inl (List.mem_cons_self _ _)
        · rcases ih h2 with h3 | h3
          · exact Or.inl (List.mem_cons_of_mem _ h3)
          · exact Or.inr h3

theorem mem_setA_of_fst_eq {α : Type} {a : List (Nat × α)} {k : Nat} {v : α} {e : Nat × α}
    (hnd : (a.map Prod.fst).Nodup) (h : e ∈ setA a k v) (hfst : e.1 = k) : e = (k, v) := by
  induction a with
  | nil => simp [setA] at h
  | cons hd tl ih =>
      obtain ⟨k', v'⟩ := hd
      simp only [List.map_cons, List.nodup_cons] at hnd
      by_cases hk : k' = k
      · subst hk
        simp only [setA, if_pos rfl] at h
        rcases List.mem_cons.mp h with rfl | h2
        · rfl
        · exfalso
          exact hnd.1 (hfst ▸ (List.mem_map.mpr ⟨e, h2, rfl⟩))
      · simp only [setA, if_neg hk] at h
        rcases List.mem_cons.mp h with rfl | h2
        · exact absurd hfst hk
        · exact ih hnd.2 h2

theorem removeA_sublist {α : Type} (a : List (Nat × α)) (k : Nat) :
    (removeA a k).Sublist a := by
  induction a with
  | nil => simp [removeA]
  | cons hd tl ih =>
      obtain ⟨k', v⟩ := hd
      by_cases hk : k' = k
      · simpa [removeA, hk] using List.sublist_cons_self _ _
      · simpa [removeA, hk] using ih.cons₂ (k', v)

/-- Decompose an arena at a present key. -/
theorem removeA_decomp {α : Type} (a : List (Nat × α)) (k : Nat) (v : α)
    (h : lookupA a k = some v) :
    ∃ pre post, a = pre ++ (k, v) :: post ∧ removeA a k = pre ++ post ∧
      k ∉ pre.map Prod.fst := by
  induction a with
  | nil => simp [lookupA] at h
  | cons hd tl ih =>
      obtain ⟨k', v'⟩ := hd
      by_cases hk : k' = k
      · subst hk
        have h' : v' = v := by simpa [lookupA] using h
        subst h'
        exact ⟨[], tl, by simp [removeA]⟩
      · simp only [lookupA, if_neg hk] at h
        obtain ⟨pre, post, h1, h2, h3⟩ := ih h
        refine ⟨(k', v') :: pre, post, by simp [h1], ?_, ?_⟩
        · simp only [removeA, if_neg hk, h2, List.cons_append]
        · simp only [List.map_cons, List.mem_cons]
          rintro (h4 | h4)
          · exact hk h4.symm
          · exact h3 h4

end Forestlib

namespace Forestlib

theorem lookupA_mem {α : Type} {a : List (Nat × α)} {k : Nat} {v : α}
    (h : lookupA a k = some v) : (k, v) ∈ a := by
  induction a with
  | nil => simp [lookupA] at h
  | cons hd tl ih =>
      obtain ⟨k', v'⟩ := hd
      by_cases hk : k' = k
      · subst hk
        have h' : v' = v := by simpa [lookupA] using h
        subst h'
        exact List.mem_cons_self _ _
      · simp only [lookupA, if_neg hk] at h
        exact List.mem_cons_of_mem _ (ih h)

theorem DescA_congr {D L : Type} {A A2 : List (Nat × NodeContents D L)} {s m : Nat}
    (hd : DescA A s m) :
    (∀ p, DescA A s p →
        (lookupA A2 p).map childrenOf = (lookupA A p).map childrenOf) →
    DescA A2 s m := by
  induction hd with
  | refl n => intro _; exact DescA.refl n
  | @step p c m cts hp hc hd ih =>
      intro hagree
      have h1 : (lookupA A2 p).map childrenOf = some (childrenOf cts) := by
        rw [hagree p (DescA.refl p), hp]
        rfl
      obtain ⟨cts', hcts', hch⟩ : ∃ cts', lookupA A2 p = some cts' ∧ childrenOf cts' = childrenOf cts := by
        cases hl : lookupA A2 p with
        | none => rw [hl] at h1; exact Option.noConfusion h1
        | some x => rw [hl] at h1; exact ⟨x, rfl, Option.some_inj.mp h1⟩
      refine DescA.step cts' hcts' (hch ▸ hc) ?_
      refine ih (fun q hq => hagree q ?_)
      exact DescA.step cts hp hc hq

theorem DescA_of_removeA {D L : Type} {A : List (Nat × NodeContents D L)} {k s m : Nat}
    (hnd : (A.map Prod.fst).Nodup) (hd : DescA (removeA A k) s m) : DescA A s m := by
  induction hd with
  | refl n => exact DescA.refl n
  | @step p c m cts hp hc hd ih =>
      by_cases hpk : p = k
      · subst hpk
        rw [lookupA_removeA_self A p hnd] at hp
        exact Option.noConfusion hp
      · rw [lookupA_removeA_ne A k p hpk] at hp
        exact DescA.step cts hp hc ih

theorem DescA_removeA_iff {D L : Type} {A : List (Nat × NodeContents D L)} {k s m : Nat}
    (hnd : (A.map Prod.fst).Nodup) (hk : ¬ DescA A s k) :
    DescA (removeA A k) s m ↔ DescA A s m := by
  constructor
  · exact DescA_of_removeA hnd
  · intro hd
    refine DescA_congr hd (fun p hp => ?_)
    have hpk : p ≠ k := fun h => hk (h ▸ hp)
    rw [lookupA_removeA_ne A k p hpk]

/-- Inversion: a descendant of `n` is `n` itself or a descendant of one of
its children. -/
theorem DescA_unfold {D L : Type} {A : List (Nat × NodeContents D L)} {n m : Nat} :
    DescA A n m ↔ m = n ∨ ∃ cts, lookupA A n = some cts ∧
      ∃ c ∈ childrenOf cts, DescA A c m := by
  constructor
  · intro hd
    cases hd with
    | refl => exact Or.inl rfl
    | step cts hp hc hd => exact Or.inr ⟨cts, hp, _, hc, hd⟩
  · rintro (rfl | ⟨cts, hp, c, hc, hd⟩)
    · exact DescA.refl m
    · exact DescA.step cts hp hc hd

theorem DescA_rank {D L : Type} {A : List (Nat × NodeContents D L)} {rank : Nat → Nat}
    (hrank : ∀ e ∈ A, ∀ c ∈ childrenOf e.2, rank c < rank e.1)
    {s m : Nat} (hd : DescA A s m) : m = s ∨ rank m < rank s := by
  induction hd with
  | refl n => exact Or.inl rfl
  | @step p c m cts hp hc hd ih =>
      have h1 : rank c < rank p := hrank (p, cts) (lookupA_mem hp) c hc
      rcases ih with rfl | h2
      · exact Or.inr h1
      · exact Or.inr (lt_trans h2 h1)

theorem DescA_trans {D L : Type} {A : List (Nat × NodeContents D L)} {a b c : Nat}
    (h1 : DescA A a b) (h2 : DescA A b c) : DescA A a c := by
  induction h1 with
  | refl n => exact h2
  | step cts hp hc hd ih => exact DescA.step cts hp hc (ih h2)

end Forestlib

namespace Forestlib

/-- All child indices appearing in any entry of the arena. -/
def flatKids {D L : Type} (A : List (Nat × NodeContents D L)) : List Nat :=
  A.flatMap (fun e => childrenOf e.2)

theorem mem_flatKids {D L : Type} {A : List (Nat × NodeContents D L)} {x : Nat} :
    x ∈ flatKids A ↔ ∃ e ∈ A, x ∈ childrenOf e.2 := by
  simp [flatKids, List.mem_flatMap]

theorem DescA_mem_flatKids {D L : Type} {A : List (Nat × NodeContents D L)} {s m : Nat}
    (hd : DescA A s m) (hne : m ≠ s) : m ∈ flatKids A := by
  induction hd with
  | refl n => exact absurd rfl hne
  | @step p c m cts hp hc hd ih =>
      by_cases hmc : m = c
      · subst hmc
        exact mem_flatKids.mpr ⟨(p, cts), lookupA_mem hp, hc⟩
      · exact ih hmc

/-- Invariant carried by the `Node::delete` worklist: distinct keys, live
stack of roots of pairwise-disjoint subtrees (no stack element is anyone's
child), every child live and listed exactly once, ranks decreasing from
parent to child. -/
structure LoopInv {D L : Type} (rank : Nat → Nat)
    (A : List (Nat × NodeContents D L)) (S : List Nat) : Prop where
  keysNodup : (A.map Prod.fst).Nodup
  stackNodup : S.Nodup
  stackLive : ∀ s ∈ S, s ∈ A.map Prod.fst
  childLive : ∀ e ∈ A, ∀ c ∈ childrenOf e.2, c ∈ A.map Prod.fst
  flatNodup : (flatKids A).Nodup
  disj : ∀ s ∈ S, s ∉ flatKids A
  rankDec : ∀ e ∈ A, ∀ c ∈ childrenOf e.2, rank c < rank e.1


theorem deleteLoop_nil {D L : Type} (A : List (Nat × NodeContents D L)) :
    Forest.deleteLoop A [] = some A := by
  rw [Forest.deleteLoop]

/-- The worklist loop of `Node::delete` removes exactly the members of the
subtrees rooted at the stack elements, and nothing else. -/
theorem deleteLoop_spec {D L : Type} (rank : Nat → Nat) :
    ∀ (N : Nat) (A : List (Nat × NodeContents D L)) (S : List Nat),
      A.length ≤ N → LoopInv rank A S →
      ∃ A2, Forest.deleteLoop A S = some A2 ∧
        (∀ m, (∃ s ∈ S, DescA A s m) → lookupA A2 m = none) ∧
        (∀ m, (∀ s ∈ S, ¬ DescA A s m) → lookupA A2 m = lookupA A m) := by
  intro N
  induction N with
  | zero =>
      intro A S hlen hinv
      have hA : A = [] := List.length_eq_zero.mp (Nat.le_zero.mp hlen)
      subst hA
      cases S with
      | nil =>
          refine ⟨[], deleteLoop_nil [], ?_, ?_⟩
          · rintro m ⟨s, hs, _⟩
            exact absurd hs (List.not_mem_nil _)
          · intro m _
            rfl
      | cons n rest =>
          have := hinv.stackLive n (List.mem_cons_self _ _)
          simp at this
  | succ N ih =>
      intro A S hlen hinv
      cases S with
      | nil =>
          refine ⟨A, deleteLoop_nil A, ?_, ?_⟩
          · rintro m ⟨s, hs, _⟩
            exact absurd hs (List.not_mem_nil _)
          · intro m _
            rfl
      | cons n rest =>
          -- the popped node is live
          have hnkeys : n ∈ A.map Prod.fst := hinv.stackLive n (List.mem_cons_self _ _)
          have hnsome : (lookupA A n).isSome := (lookupA_isSome_iff A n).mpr hnkeys
          obtain ⟨c, hc⟩ : ∃ c, lookupA A n = some c := by
            cases h : lookupA A n with
            | none => rw [h] at hnsome; simp at hnsome
            | some x => exact ⟨x, rfl⟩
          set A1 := removeA A n with hA1
          set S1 := (childrenOf c).reverse ++ rest with hS1
          have hstep : Forest.deleteLoop A (n :: rest) = Forest.deleteLoop A1 S1 := by
            rw [Forest.deleteLoop]
            split
            · next h => rw [hc] at h; exact Option.noConfusion h
            · next c' h =>
                rw [hc] at h
                obtain rfl := Option.some_inj.mp h
                rw [hS1, childrenOf]
                cases c.children <;> rfl
          have hlen1 : A1.length ≤ N := by
            rw [hA1]
            have := removeA_length_lt A n hnsome
            omega
          -- arena decomposition at n
          obtain ⟨pre, post, hdecomp, hrem, hnpre⟩ := removeA_decomp A n c hc
          have hflatA : flatKids A = flatKids pre ++ (childrenOf c ++ flatKids post) := by
            rw [hdecomp]
            simp [flatKids]
          have hflatA1 : flatKids A1 = flatKids pre ++ flatKids post := by
            rw [hA1, hrem]
            simp [flatKids]
          have hkidsSub : (childrenOf c).Sublist (flatKids A) := by
            rw [hflatA]
            exact ((List.sublist_append_left _ _).trans (List.sublist_append_right _ _))
          have hflat1Sub : (flatKids A1).Sublist (flatKids A) := by
            rw [hflatA, hflatA1]
            exact List.Sublist.append_left (List.sublist_append_right _ _) _
          have hndisj : n ∉ flatKids A := hinv.disj n (List.mem_cons_self _ _)
          have hrestNodup : rest.Nodup := (List.nodup_cons.mp hinv.stackNodup).2
          have hnNotRest : n ∉ rest := (List.nodup_cons.mp hinv.stackNodup).1
          -- children of the popped node are live, distinct from n and rest
          have hkid_mem : ∀ x ∈ childrenOf c, x ∈ flatKids A := fun x hx => hkidsSub.mem hx
          have hkid_ne_n : ∀ x ∈ childrenOf c, x ≠ n := by
            intro x hx h
            exact hndisj (h ▸ hkid_mem x hx)
          have hmem_keys_A1 : ∀ x, x ∈ A.map Prod.fst → x ≠ n → x ∈ A1.map Prod.fst := by
            intro x hx hne
            have h1 : lookupA A1 x = lookupA A x := lookupA_removeA_ne A n x hne
            rw [← lookupA_isSome_iff, h1, lookupA_isSome_iff]
            exact hx
          have hmem_A1 : ∀ e : Nat × NodeContents D L, e ∈ A1 → e ∈ A := by
            intro e he
            exact (hA1 ▸ removeA_sublist A n).mem he
          -- the new invariant
          have hinv1 : LoopInv rank A1 S1 := by
            refine ⟨removeA_keys_nodup A n hinv.keysNodup, ?_, ?_, ?_, ?_, ?_, ?_⟩
            · -- stack nodup
              rw [hS1]
              refine List.Nodup.append ?_ hrestNodup ?_
              · exact (List.nodup_reverse.mpr (hkidsSub.nodup hinv.flatNodup))
              · intro x hx1 hx2
                have hx1' : x ∈ childrenOf c := List.mem_reverse.mp hx1
                exact hinv.disj x (List.mem_cons_of_mem _ hx2) (hkid_mem x hx1')
            · -- stack live
              intro s hs
              rw [hS1, List.mem_append, List.mem_reverse] at hs
              rcases hs with hs | hs
              · refine hmem_keys_A1 s ?_ (hkid_ne_n s hs)
                exact hinv.childLive (n, c) (lookupA_mem hc) s hs
              · exact hmem_keys_A1 s (hinv.stackLive s (List.mem_cons_of_mem _ hs))
                  (fun h => hnNotRest (h ▸ hs))
            · -- children live
              intro e he c' hc'
              have heA : e ∈ A := hmem_A1 e he
              refine hmem_keys_A1 c' (hinv.childLive e heA c' hc') ?_
              intro h
              exact hndisj (h ▸ mem_flatKids.mpr ⟨e, heA, hc'⟩)
            · -- flat nodup
              rw [hflatA1]
              have h1 : (flatKids pre ++ flatKids post).Sublist (flatKids A) := by
                rw [hflatA]
                exact List.Sublist.append_left (List.sublist_append_right _ _) _
              exact h1.nodup hinv.flatNodup
            · -- stack disjoint from remaining children
              intro s hs hsf
              rw [hS1, List.mem_append, List.mem_reverse] at hs
              rcases hs with hs | hs
              · -- s is a child of the removed node: it occurs once in flatKids A
                have hnd := hinv.flatNodup
                rw [hflatA] at hnd
                rw [hflatA1] at hsf
                rcases List.mem_append.mp hsf with h1 | h1
                · have hdisj2 := (List.nodup_append.mp hnd).2.2
                  exact hdisj2 h1 (List.mem_append.mpr (Or.inl hs))
                · have hnd2 := (List.nodup_append.mp hnd).2.1
                  have hdisj3 := (List.nodup_append.mp hnd2).2.2
                  exact hdisj3 hs h1
              · exact hinv.disj s (List.mem_cons_of_mem _ hs) (hflat1Sub.mem hsf)
            · -- ranks still decrease
              intro e he c' hc'
              exact hinv.rankDec e (hmem_A1 e he) c' hc'
          obtain ⟨A2, hA2, hdel, hkeep⟩ := ih A1 S1 hlen1 hinv1
          -- no element of the new stack has n in its subtree
          have hnoN : ∀ s ∈ S1, ¬ DescA A s n := by
            intro s hs hd
            have hsne : s ≠ n := by
              rw [hS1, List.mem_append, List.mem_reverse] at hs
              rcases hs with hs | hs
              · exact hkid_ne_n s hs
              · exact fun h => hnNotRest (h ▸ hs)
            exact hndisj (DescA_mem_flatKids hd (fun h => hsne h.symm))
          have hdesc_iff : ∀ s ∈ S1, ∀ m, DescA A1 s m ↔ DescA A s m := by
            intro s hs m
            rw [hA1]
            exact DescA_removeA_iff hinv.keysNodup (hnoN s hs)
          refine ⟨A2, hstep.trans hA2, ?_, ?_⟩
          · -- everything in a stack subtree is gone
            rintro m ⟨s, hsmem, hsd⟩
            rcases List.mem_cons.mp hsmem with rfl | hsrest
            · rcases DescA_unfold.mp hsd with rfl | ⟨cts, hcts, c', hc', hd'⟩
              · -- m is the popped node itself: removed and never looked at again
                have h1 : ∀ s' ∈ S1, ¬ DescA A1 s' m := fun s' hs' hdd =>
                  hnoN s' hs' ((hdesc_iff s' hs' m).mp hdd)
                rw [hkeep m h1, hA1]
                exact lookupA_removeA_self A m hinv.keysNodup
              · -- m is under a child of the popped node
                have hcc : cts = c := Option.some_inj.mp (hcts.symm.trans hc)
                subst hcc
                have hc'S1 : c' ∈ S1 := by
                  rw [hS1, List.mem_append, List.mem_reverse]
                  exact Or.inl hc'
                exact hdel m ⟨c', hc'S1, (hdesc_iff c' hc'S1 m).mpr hd'⟩
            · have hsS1 : s ∈ S1 := by
                rw [hS1, List.mem_append]
                exact Or.inr hsrest
              exact hdel m ⟨s, hsS1, (hdesc_iff s hsS1 m).mpr hsd⟩
          · -- frame: nodes in no stack subtree keep their entry
            intro m hm
            have hmn : m ≠ n := fun h =>
              hm n (List.mem_cons_self _ _) (by rw [h]; exact DescA.refl n)
            have h1 : ∀ s' ∈ S1, ¬ DescA A1 s' m := by
              intro s' hs' hdd
              have hAm : DescA A s' m := (hdesc_iff s' hs' m).mp hdd
              rw [hS1, List.mem_append, List.mem_reverse] at hs'
              rcases hs' with hs' | hs'
              · exact hm n (List.mem_cons_self _ _) (DescA.step c hc hs' hAm)
              · exact hm s' (List.mem_cons_of_mem _ hs') hAm
            rw [hkeep m h1, hA1, lookupA_removeA_ne A n m hmn]

end Forestlib

namespace Forestlib

theorem lookupA_of_mem_nodup {α : Type} {a : List (Nat × α)} {k : Nat} {v : α}
    (hnd : (a.map Prod.fst).Nodup) (h : (k, v) ∈ a) : lookupA a k = some v := by
  induction a with
  | nil => exact absurd h (List.not_mem_nil _)
  | cons hd tl ih =>
      obtain ⟨k', v'⟩ := hd
      simp only [List.map_cons, List.nodup_cons] at hnd
      rcases List.mem_cons.mp h with heq | hmem
      · obtain ⟨rfl, rfl⟩ := Prod.mk.injEq .. ▸ heq
        simp [lookupA]
      · by_cases hk : k' = k
        · subst hk
          exact absurd (List.mem_map.mpr ⟨(k', v), hmem, rfl⟩) hnd.1
        · simp only [lookupA, if_neg hk]
          exact ih hnd.2 hmem

theorem flatKids_setA_sublist {D L : Type} (a : List (Nat × NodeContents D L))
    (k : Nat) (v v0 : NodeContents D L) (h : lookupA a k = some v0)
    (hsub : (childrenOf v).Sublist (childrenOf v0)) :
    (flatKids (setA a k v)).Sublist (flatKids a) := by
  induction a with
  | nil => simp [setA, flatKids]
  | cons hd tl ih =>
      obtain ⟨k', v'⟩ := hd
      by_cases hk : k' = k
      · subst hk
        have hv0 : v' = v0 := by simpa [lookupA] using h
        subst hv0
        simp only [setA, if_pos rfl, flatKids, List.flatMap_cons]
        exact List.Sublist.append hsub (List.Sublist.refl _)
      · simp only [lookupA, if_neg hk] at h
        simp only [setA, if_neg hk, flatKids, List.flatMap_cons]
        exact List.Sublist.append (List.Sublist.refl _) (ih h)

/-- Well-formedness of a forest arena, as enforced by the crate: distinct
keys, parent/child agreement in both directions, each child listed exactly
once overall, and a rank function certifying acyclicity (children have
strictly smaller rank, as in any forest built by the public API). -/
structure ForestWF {D L : Type} (rank : Nat → Nat) (f : Forest D L) : Prop where
  keysNodup : (f.arena.map Prod.fst).Nodup
  flatNodup : (flatKids f.arena).Nodup
  childLive : ∀ e ∈ f.arena, ∀ c ∈ childrenOf e.2, c ∈ f.arena.map Prod.fst
  childParent : ∀ e ∈ f.arena, ∀ c ∈ childrenOf e.2,
      (lookupA f.arena c).map (·.parent) = some (some e.1)
  parentChild : ∀ e ∈ f.arena, ∀ p, e.2.parent = some p →
      ∃ pe ∈ f.arena, pe.1 = p ∧ e.1 ∈ childrenOf pe.2
  rankDec : ∀ e ∈ f.arena, ∀ c ∈ childrenOf e.2, rank c < rank e.1

end Forestlib

namespace Forestlib

theorem childrenOf_branch {D L : Type} {c : NodeContents D L} {x : Nat}
    (h : x ∈ childrenOf c) : c.children = NodeChildren.branch (childrenOf c) := by
  cases hc : c.children with
  | leaf v => rw [childrenOf, hc] at h; exact absurd h (List.not_mem_nil _)
  | branch kids => rw [childrenOf, hc]

theorem childrenOf_sublist_flatKids {D L : Type} {A : List (Nat × NodeContents D L)}
    {e : Nat × NodeContents D L} (he : e ∈ A) :
    (childrenOf e.2).Sublist (flatKids A) := by
  obtain ⟨s, t, rfl⟩ := List.append_of_mem he
  have : flatKids (s ++ e :: t) = flatKids s ++ (childrenOf e.2 ++ flatKids t) := by
    simp [flatKids]
  rw [this]
  exact ((List.sublist_append_left _ _).trans (List.sublist_append_right _ _))

/-- `Node::detach` on a root node is a no-op. -/
theorem detach_root {D L : Type} (f : Forest D L) (n : Nat) (c : NodeContents D L)
    (hn : f.get? n = some c) (hp : c.parent = none) :
    f.detach n = some f := by
  simp [Forest.detach, hn, hp]

/-- Computation of `Node::detach` on a non-root node in a well-formed
forest: the parent's child list loses `n` (order kept) and `n`'s parent
link is cleared; `n` is pushed onto the roots. -/
theorem detach_child {D L : Type} (f : Forest D L) (n p : Nat)
    (c cp : NodeContents D L)
    (hn : f.get? n = some c) (hp : c.parent = some p)
    (hcp : lookupA f.arena p = some cp) (hnk : n ∈ childrenOf cp) (hnp : n ≠ p) :
    f.detach n = some
      { roots := f.roots ++ [n]
        arena := setA (setA f.arena p
            ({ cp with children := NodeChildren.branch ((childrenOf cp).erase n) })) n
            ({ c with parent := none })
        nextIdx := f.nextIdx } := by
  have hbr : cp.children = NodeChildren.branch (childrenOf cp) := childrenOf_branch hnk
  have hn' : lookupA f.arena n = some c := hn
  have hchild : f.children? p = some (childrenOf cp) := by
    simp [Forest.children?, Forest.get?, hcp, hbr]
  have hsibs : f.siblings? n = some (childrenOf cp) := by
    simp [Forest.siblings?, hn, hp, hchild]
  have hidx : f.siblingIndex? n = some (List.indexOf n (childrenOf cp)) := by
    simp [Forest.siblingIndex?, hsibs, hnk]
  have hset : f.setSiblings n ((childrenOf cp).erase n)
      = some { f with arena := (setA f.arena p ({ cp with children := NodeChildren.branch ((childrenOf cp).erase n) })) } := by
    simp [Forest.setSiblings, hn, hn', hp, Forest.get?, hcp, hbr]
  have hget1 : lookupA (setA f.arena p
      ({ cp with children := NodeChildren.branch ((childrenOf cp).erase n) })) n = some c := by
    rw [lookupA_setA_ne _ _ _ _ hnp]
    exact hn
  simp [Forest.detach, hn, hn', hp, hidx, hsibs, hset, Forest.setParent, Forest.get?, hget1]

end Forestlib

namespace Forestlib

/-- C9: after `n.delete()`, `n` and all of its former descendants are
invalid, while every node outside the deleted subtree keeps its entire
entry (validity, data, leaf contents, parent link, child list) — except
`n`'s former parent, which keeps everything but loses exactly the one
child `n`, its other children staying in order (`erase n`). -/
theorem c9_delete_invalidates_subtree_and_preserves_rest {D L : Type}
    (f : Forest D L) (rank : Nat → Nat) (hwf : ForestWF rank f)
    (n : Nat) (c : NodeContents D L) (hn : f.get? n = some c) :
    ∃ f2, f.delete n = some f2 ∧
      (∀ m, DescA f.arena n m → f2.get? m = none) ∧
      (∀ m, ¬ DescA f.arena n m → c.parent ≠ some m → f2.get? m = f.get? m) ∧
      (∀ p cp, c.parent = some p → lookupA f.arena p = some cp →
          f2.get? p = some ({ cp with children := NodeChildren.branch ((childrenOf cp).erase n) })) := by
  have hn' : lookupA f.arena n = some c := hn
  have hnA : (n, c) ∈ f.arena := lookupA_mem hn'
  cases hpar : c.parent with
  | none =>
      have hdet := detach_root f n c hn hpar
      have hinv : LoopInv rank f.arena [n] := by
        refine ⟨hwf.keysNodup, List.nodup_singleton n, ?_, hwf.childLive,
          hwf.flatNodup, ?_, hwf.rankDec⟩
        · intro s hs
          rw [List.mem_singleton] at hs
          subst hs
          exact (lookupA_isSome_iff _ _).mp (by rw [hn']; rfl)
        · intro s hs hmem
          rw [List.mem_singleton] at hs
          subst hs
          obtain ⟨e, he, hce⟩ := mem_flatKids.mp hmem
          have h2 := hwf.childParent e he s hce
          rw [hn'] at h2
          have h3 : c.parent = some e.1 := by simpa using h2
          rw [hpar] at h3
          exact Option.noConfusion h3
      obtain ⟨A2, hloop, hdel, hkeep⟩ :=
        deleteLoop_spec rank f.arena.length f.arena [n] le_rfl hinv
      refine ⟨{ roots := f.roots.filter (· ≠ n), arena := A2, nextIdx := f.nextIdx },
        ?_, ?_, ?_, ?_⟩
      · simp [Forest.delete, hdet, hloop]
      · intro m hm
        exact hdel m ⟨n, List.mem_singleton.mpr rfl, hm⟩
      · intro m hm _
        refine hkeep m ?_
        intro s hs
        rw [List.mem_singleton] at hs
        subst hs
        exact hm
      · intro p0 cp0 hp0 _
        exact Option.noConfusion hp0
  | some p =>
      obtain ⟨pe, hpe, hpe1, hpek⟩ := hwf.parentChild (n, c) hnA p hpar
      obtain ⟨p', cp⟩ := pe
      simp only at hpe1 hpek
      have hpe1' : p = p' := hpe1.symm
      subst hpe1' 
      have hcp : lookupA f.arena p = some cp := lookupA_of_mem_nodup hwf.keysNodup hpe
      have hrankn : rank n < rank p := hwf.rankDec (p, cp) hpe n hpek
      have hnp : n ≠ p := fun h => by rw [h] at hrankn; exact lt_irrefl _ hrankn
      have hdet := detach_child f n p c cp hn hpar hcp hpek hnp
      set cpE : NodeContents D L :=
        { cp with children := NodeChildren.branch ((childrenOf cp).erase n) } with hcpEdef
      set cN : NodeContents D L := { c with parent := none } with hcNdef
      set A1 : List (Nat × NodeContents D L) := setA f.arena p cpE with hA1def
      set A4 : List (Nat × NodeContents D L) := setA A1 n cN with hA4def
      have hcpEch : childrenOf cpE = (childrenOf cp).erase n := rfl
      have hcNch : childrenOf cN = childrenOf c := rfl
      have hkeys1 : A1.map Prod.fst = f.arena.map Prod.fst := by
        rw [hA1def]; exact setA_map_fst ..
      have hkeys' : A4.map Prod.fst = f.arena.map Prod.fst := by
        rw [hA4def, setA_map_fst, hkeys1]
      have hA1n : lookupA A1 n = some c := by
        rw [hA1def, lookupA_setA_ne _ _ _ _ hnp]; exact hn'
      have hA4n : lookupA A4 n = some cN := by
        rw [hA4def]
        exact lookupA_setA_self _ _ _ (by rw [hA1n]; rfl)
      have hA4p : lookupA A4 p = some cpE := by
        rw [hA4def, lookupA_setA_ne _ _ _ _ (Ne.symm hnp), hA1def]
        exact lookupA_setA_self _ _ _ (by rw [hcp]; rfl)
      have hA4other : ∀ m, m ≠ n → m ≠ p → lookupA A4 m = lookupA f.arena m := by
        intro m h1 h2
        rw [hA4def, lookupA_setA_ne _ _ _ _ h1, hA1def, lookupA_setA_ne _ _ _ _ h2]
      have hmemA4 : ∀ e : Nat × NodeContents D L, e ∈ A4 →
          (e ∈ f.arena ∧ e.1 ≠ n ∧ e.1 ≠ p) ∨ e = (p, cpE) ∨ e = (n, cN) := by
        intro e he
        by_cases hen : e.1 = n
        · right; right
          refine mem_setA_of_fst_eq ?_ (hA4def ▸ he) hen
          rw [hkeys1]
          exact hwf.keysNodup
        · rcases mem_setA (hA4def ▸ he) with h1 | h1
          · by_cases hep : e.1 = p
            · right; left
              exact mem_setA_of_fst_eq hwf.keysNodup (hA1def ▸ h1) hep
            · left
              rcases mem_setA (hA1def ▸ h1) with h2 | h2
              · exact ⟨h2, hen, hep⟩
              · exact absurd (congrArg Prod.fst h2) hep
          · exact absurd (congrArg Prod.fst h1) hen
      have hchA4 : ∀ e ∈ A4, ∀ c' ∈ childrenOf e.2,
          ∃ e0 ∈ f.arena, c' ∈ childrenOf e0.2 ∧ e.1 = e0.1 := by
        intro e he c' hc'
        rcases hmemA4 e he with ⟨h1, _, _⟩ | h1 | h1
        · exact ⟨e, h1, hc', rfl⟩
        · subst h1
          refine ⟨(p, cp), hpe, ?_, rfl⟩
          have h2 : c' ∈ (childrenOf cp).erase n := hcpEch ▸ hc'
          exact List.mem_of_mem_erase h2
        · subst h1
          exact ⟨(n, c), hnA, hcNch ▸ hc', rfl⟩
      have hkidsnd : (childrenOf cp).Nodup :=
        (childrenOf_sublist_flatKids hpe).nodup hwf.flatNodup
      have hflat'sub : (flatKids A4).Sublist (flatKids f.arena) := by
        have h1 : (flatKids A1).Sublist (flatKids f.arena) := by
          rw [hA1def]
          refine flatKids_setA_sublist f.arena p cpE cp hcp ?_
          rw [hcpEch]
          exact List.erase_sublist _ _
        have h2 : (flatKids A4).Sublist (flatKids A1) := by
          rw [hA4def]
          refine flatKids_setA_sublist A1 n cN c hA1n ?_
          rw [hcNch]
        exact h2.trans h1
      have hinv : LoopInv rank A4 [n] := by
        refine ⟨?_, List.nodup_singleton n, ?_, ?_, ?_, ?_, ?_⟩
        · rw [hkeys']
          exact hwf.keysNodup
        · intro s hs
          rw [List.mem_singleton] at hs
          subst hs
          exact (lookupA_isSome_iff _ _).mp (by rw [hA4n]; rfl)
        · intro e he c' hc'
          obtain ⟨e0, he0, hc0, _⟩ := hchA4 e he c' hc'
          rw [hkeys']
          exact hwf.childLive e0 he0 c' hc0
        · exact hflat'sub.nodup hwf.flatNodup
        · intro s hs hmem
          rw [List.mem_singleton] at hs
          subst hs
          obtain ⟨e, he, hce⟩ := mem_flatKids.mp hmem
          rcases hmemA4 e he with ⟨h1, _, hep⟩ | h1 | h1
          · have h2 := hwf.childParent e h1 s hce
            rw [hn'] at h2
            have h3 : c.parent = some e.1 := by simpa using h2
            rw [hpar] at h3
            exact hep (Option.some_inj.mp h3).symm
          · subst h1
            have h2 : s ∈ (childrenOf cp).erase s := hcpEch ▸ hce
            exact ((List.Nodup.mem_erase_iff hkidsnd).mp h2).1 rfl
          · subst h1
            have h2 : s ∈ childrenOf c := hcNch ▸ hce
            exact lt_irrefl _ (hwf.rankDec (s, c) hnA s h2)
        · intro e he c' hc'
          obtain ⟨e0, he0, hc0, heq⟩ := hchA4 e he c' hc'
          rw [heq]
          exact hwf.rankDec e0 he0 c' hc0
      have hagreeF : ∀ q, DescA f.arena n q →
          (lookupA A4 q).map childrenOf = (lookupA f.arena q).map childrenOf := by
        intro q hq
        rcases DescA_rank hwf.rankDec hq with rfl | hlt
        · rw [hA4n, hn']
          simp [hcNch]
        · have hqn : q ≠ n := fun h => by rw [h] at hlt; exact lt_irrefl _ hlt
          have hqp : q ≠ p := fun h => by rw [h] at hlt; omega
          rw [hA4other q hqn hqp]
      have hagreeB : ∀ q, DescA A4 n q →
          (lookupA f.arena q).map childrenOf = (lookupA A4 q).map childrenOf := by
        intro q hq
        rcases DescA_rank hinv.rankDec hq with rfl | hlt
        · rw [hA4n, hn']
          simp [hcNch]
        · have hqn : q ≠ n := fun h => by rw [h] at hlt; exact lt_irrefl _ hlt
          have hqp : q ≠ p := fun h => by rw [h] at hlt; omega
          rw [hA4other q hqn hqp]
      have hdescF : ∀ m, DescA f.arena n m → DescA A4 n m :=
        fun m hm => DescA_congr hm hagreeF
      have hdescB : ∀ m, DescA A4 n m → DescA f.arena n m :=
        fun m hm => DescA_congr hm hagreeB
      obtain ⟨A2, hloop, hdel, hkeep⟩ := deleteLoop_spec rank A4.length A4 [n] le_rfl hinv
      refine ⟨{ roots := (f.roots ++ [n]).filter (· ≠ n), arena := A2, nextIdx := f.nextIdx },
        ?_, ?_, ?_, ?_⟩
      · simp [Forest.delete, hdet, hloop]
      · intro m hm
        exact hdel m ⟨n, List.mem_singleton.mpr rfl, hdescF m hm⟩
      · intro m hm hpm
        have hmn : m ≠ n := fun h => hm (by rw [h]; exact DescA.refl n)
        have hmp : m ≠ p := fun h => hpm (by rw [h])
        have h1 : lookupA A2 m = lookupA A4 m := by
          refine hkeep m ?_
          intro s hs hdd
          rw [List.mem_singleton] at hs
          subst hs
          exact hm (hdescB m hdd)
        show lookupA A2 m = lookupA f.arena m
        rw [h1, hA4other m hmn hmp]
      · intro p0 cp0 hp0 hcp0
        obtain rfl : p = p0 := Option.some_inj.mp hp0
        obtain rfl : cp = cp0 := by
          rw [hcp0] at hcp
          exact (Option.some_inj.mp hcp).symm
        have h1 : lookupA A2 p = lookupA A4 p := by
          refine hkeep p ?_
          intro s hs hdd
          rw [List.mem_singleton] at hs
          subst hs
          have h2 := hdescB p hdd
          rcases DescA_rank hwf.rankDec h2 with h3 | h3
          · exact hnp h3.symm
          · omega
        show lookupA A2 p = some cpE
        rw [h1, hA4p]

end Forestlib

namespace Forestlib

/-- A concrete well-formed forest: root branch `0` (data 10) with single
child branch `1` (data 20). -/
def demoDeleteForest : Forest Nat Nat :=
  ⟨[0], [(0, ⟨none, 10, NodeChildren.branch [1]⟩),
         (1, ⟨some 0, 20, NodeChildren.branch []⟩)], 2⟩

/-- A rank certifying acyclicity of `demoDeleteForest`. -/
def demoRank : Nat → Nat := fun k => 1 - k

theorem demoDeleteForest_wf : ForestWF demoRank demoDeleteForest := by
  refine ⟨by decide, by decide, by decide, by decide, ?_, by decide⟩
  intro e he p hp
  fin_cases he
  · exact Option.noConfusion hp
  · obtain rfl : p = 0 := (Option.some_inj.mp hp).symm
    exact ⟨(0, ⟨none, 10, NodeChildren.branch [1]⟩), by decide, rfl, by decide⟩

end Forestlib

/-- Witness for the C9 theorem: deleting child `1` of root `0` in the
concrete two-node forest. -/
theorem c9_delete_witness :
    ∃ f2, Forestlib.demoDeleteForest.delete 1 = some f2 ∧
      (∀ m, Forestlib.DescA Forestlib.demoDeleteForest.arena 1 m → f2.get? m = none) ∧
      (∀ m, ¬ Forestlib.DescA Forestlib.demoDeleteForest.arena 1 m →
          (Forestlib.NodeContents.parent (⟨some 0, 20, Forestlib.NodeChildren.branch []⟩ : Forestlib.NodeContents Nat Nat) ≠ some m) →
          f2.get? m = Forestlib.demoDeleteForest.get? m) ∧
      (∀ p cp, Forestlib.NodeContents.parent (⟨some 0, 20, Forestlib.NodeChildren.branch []⟩ : Forestlib.NodeContents Nat Nat) = some p →
          Forestlib.lookupA Forestlib.demoDeleteForest.arena p = some cp →
          f2.get? p = some ({ cp with children :=
            Forestlib.NodeChildren.branch ((Forestlib.childrenOf cp).erase 1) })) :=
  Forestlib.c9_delete_invalidates_subtree_and_preserves_rest
    Forestlib.demoDeleteForest Forestlib.demoRank Forestlib.demoDeleteForest_wf
    1 ⟨some 0, 20, Forestlib.NodeChildren.branch []⟩ rfl

namespace Synless

/-! ## Storage and node layer

The `tree::node` module and the `language` internals are not present under
`src/` (only `tree/location.rs` is); the node and grammar layer below is
therefore modelled from the spec (§3, §4.B), and `Location` is a faithful
translation of `src/src/tree/location.rs` on top of it. -/

/-- Modelled from the spec: a sort is either a named sort or the universal
`Any` sort (§4.A). -/
inductive SSort where
  | any
  | named (s : String)
  deriving DecidableEq, Repr

/-- Modelled from the spec: arity of a construct — `Fixed` (one required
sort per slot), `Listy` (one sort for all children), or `Texty` (§3). -/
inductive Arity where
  | fixed (sorts : List SSort)
  | listy (sort : SSort)
  | texty
  deriving DecidableEq, Repr

/-- Modelled from the spec: a construct determines an arity and a sort;
holes are placeholder constructs that fit any slot (§3, glossary). -/
structure Construct where
  arity : Arity
  sort : SSort
  isHole : Bool
  deriving DecidableEq, Repr

/-- Modelled from the spec: a texty node carries a text buffer, any other
node carries a child list (§3). -/
inductive Payload where
  | text (chars : List Char)
  | kids (children : List Nat)
  deriving DecidableEq, Repr

/-- Modelled from the spec: per-node storage — construct, parent link and
payload (§3). -/
structure NodeData where
  construct : Construct
  parent : Option Nat
  payload : Payload
  deriving DecidableEq, Repr

/-- Modelled from the spec: the generation-indexed node pool (§4.B); fresh
indices come from `nextIdx` and are never reused, which matches the
observable behaviour of generational indices. -/
structure Storage where
  arena : Nat → Option NodeData
  nextIdx : Nat

def getData (s : Storage) (n : Nat) : Option NodeData := s.arena n

def isValidN (s : Storage) (n : Nat) : Bool := (getData s n).isSome

def parentN (s : Storage) (n : Nat) : Option Nat := (getData s n).bind (·.parent)

def childrenN (s : Storage) (n : Nat) : List Nat :=
  match getData s n with
  | some d =>
      match d.payload with
      | Payload.kids l => l
      | Payload.text _ => []
  | none => []

def textN (s : Storage) (n : Nat) : Option (List Char) :=
  (getData s n).bind (fun d =>
    match d.payload with
    | Payload.text t => some t
    | Payload.kids _ => none)

def textLen (s : Storage) (n : Nat) : Nat := ((textN s n).getD []).length

def arityN (s : Storage) (n : Nat) : Option Arity := (getData s n).map (·.construct.arity)

def isTextyN (s : Storage) (n : Nat) : Bool := arityN s n == some Arity.texty

/-- A node's sibling list: its parent's children, or just itself for a root. -/
def siblingsN (s : Storage) (n : Nat) : List Nat :=
  match parentN s n with
  | some p => childrenN s p
  | none => [n]

def idxN (s : Storage) (n : Nat) : Nat := (siblingsN s n).indexOf n

def prevSibling (s : Storage) (n : Nat) : Option Nat :=
  if idxN s n = 0 then none else (siblingsN s n).get? (idxN s n - 1)

def nextSibling (s : Storage) (n : Nat) : Option Nat :=
  (siblingsN s n).get? (idxN s n + 1)

def firstSibling (s : Storage) (n : Nat) : Nat := (siblingsN s n).headD n

def lastSibling (s : Storage) (n : Nat) : Nat := (siblingsN s n).getLastD n

def firstChild (s : Storage) (n : Nat) : Option Nat := (childrenN s n).head?

def lastChild (s : Storage) (n : Nat) : Option Nat := (childrenN s n).getLast?

def rootFuelN (s : Storage) : Nat → Nat → Nat
  | 0, n => n
  | fuel + 1, n =>
      match parentN s n with
      | none => n
      | some p => rootFuelN s fuel p

/-- `Node::root` (parent chasing; fuel covers every well-formed storage). -/
def rootN (s : Storage) (n : Nat) : Nat := rootFuelN s (s.nextIdx + 1) n

/-! ## `Location` (`src/src/tree/location.rs`) -/

/-- `LocationInner`. -/
inductive Loc where
  | inText (n : Nat) (i : Nat)
  | afterNode (n : Nat)
  | beforeNode (n : Nat)
  | belowNode (n : Nat)
  deriving DecidableEq, Repr

/-- `LocationInner::normalize`. -/
def normalize (s : Storage) : Loc → Loc
  | Loc.inText n i => Loc.inText n (min i (textLen s n))
  | Loc.afterNode n => Loc.afterNode n
  | Loc.beforeNode n =>
      match prevSibling s n with
      | some p => Loc.afterNode p
      | none => Loc.beforeNode n
  | Loc.belowNode p =>
      match lastChild s p with
      | some c => Loc.afterNode c
      | none => Loc.belowNode p

/-- `LocationInner::node`. -/
def locNode : Loc → Nat
  | Loc.inText n _ => n
  | Loc.afterNode n => n
  | Loc.beforeNode n => n
  | Loc.belowNode n => n

/-- `Location::before`. -/
def before (s : Storage) (n : Nat) : Loc := normalize s (Loc.beforeNode n)

/-- `Location::after` (already normal form). -/
def after (n : Nat) : Loc := Loc.afterNode n

/-- `Location::before_children`. -/
def beforeChildren (s : Storage) (n : Nat) : Option Loc :=
  if isTextyN s n then none
  else
    match firstChild s n with
    | some fc => some (before s fc)
    | none => some (Loc.belowNode n)

/-- `Location::after_children`. -/
def afterChildren (s : Storage) (n : Nat) : Option Loc :=
  if isTextyN s n then none
  else
    match lastChild s n with
    | some lc => some (after lc)
    | none => some (Loc.belowNode n)

/-- `Location::prev`. -/
def prevL (s : Storage) : Loc → Option Loc
  | Loc.inText _ _ => none
  | Loc.afterNode n => some (before s n)
  | Loc.beforeNode _ => none
  | Loc.belowNode _ => none

/-- `Location::next`. -/
def nextL (s : Storage) : Loc → Option Loc
  | Loc.inText _ _ => none
  | Loc.afterNode n => (nextSibling s n).map after
  | Loc.beforeNode n => some (after n)
  | Loc.belowNode _ => none

/-- `Location::first`. -/
def firstL (s : Storage) : Loc → Option Loc
  | Loc.inText _ _ => none
  | Loc.afterNode n => some (before s (firstSibling s n))
  | Loc.beforeNode n => some (Loc.beforeNode n)
  | Loc.belowNode n => some (Loc.belowNode n)

/-- `Location::last`. -/
def lastL (s : Storage) : Loc → Option Loc
  | Loc.inText _ _ => none
  | Loc.beforeNode n => some (after (lastSibling s n))
  | Loc.afterNode n => some (after (lastSibling s n))
  | Loc.belowNode n => some (Loc.belowNode n)

/-- `Location::left_node`. -/
def leftNode : Loc → Option Nat
  | Loc.afterNode n => some n
  | _ => none

/-- `Location::right_node`. -/
def rightNode (s : Storage) : Loc → Option Nat
  | Loc.inText _ _ => none
  | Loc.afterNode n => nextSibling s n
  | Loc.beforeNode n => some n
  | Loc.belowNode _ => none

/-- `Location::parent_node`. -/
def parentNode (s : Storage) : Loc → Option Nat
  | Loc.inText _ _ => none
  | Loc.afterNode n => parentN s n
  | Loc.beforeNode n => parentN s n
  | Loc.belowNode n => some n

/-- `Location::before_parent`. -/
def beforeParent (s : Storage) (l : Loc) : Option Loc :=
  (parentNode s l).map (fun p => before s p)

/-- `Location::after_parent`. -/
def afterParent (s : Storage) (l : Loc) : Option Loc :=
  (parentNode s l).map after

/-- `Location::inorder_next`. -/
def inorderNext (s : Storage) (l : Loc) : Option Loc :=
  match rightNode s l with
  | some rn =>
      match beforeChildren s rn with
      | some loc => some loc
      | none => some (after rn)
  | none => afterParent s l

/-- `Location::inorder_prev`. -/
def inorderPrev (s : Storage) (l : Loc) : Option Loc :=
  match leftNode l with
  | some ln =>
      match afterChildren s ln with
      | some loc => some loc
      | none => some (before s ln)
  | none => beforeParent s l

/-- `Location::enter_text`. -/
def enterText (s : Storage) : Loc → Option Loc
  | Loc.afterNode n => (textN s n).map (fun t => Loc.inText n t.length)
  | _ => none

/-- `Location::exit_text` (already in normal form). -/
def exitText : Loc → Option Loc
  | Loc.inText n _ => some (Loc.afterNode n)
  | _ => none

/-- `Location::root_node`. -/
def rootNode (s : Storage) (l : Loc) : Nat := rootN s (locNode l)

/-- The normal form of the claim: never `BeforeNode(n)` when `n` has a
previous sibling, never `BelowNode(p)` when `p` has any child, `InText`
clamped into `0..=text_len`. -/
def isNormal (s : Storage) : Loc → Bool
  | Loc.inText n i => decide (i ≤ textLen s n)
  | Loc.afterNode _ => true
  | Loc.beforeNode n => (prevSibling s n).isNone
  | Loc.belowNode p => (lastChild s p).isNone

end Synless

namespace Synless

/-- Every output of `normalize` is in normal form. -/
theorem normalize_isNormal (s : Storage) (l : Loc) :
    isNormal s (normalize s l) = true := by
  cases l with
  | inText n i =>
      simp [normalize, isNormal, Nat.min_le_right]
  | afterNode n => rfl
  | beforeNode n =>
      simp only [normalize]
      cases h : prevSibling s n with
      | none => simp [isNormal, h]
      | some p => simp [isNormal]
  | belowNode p =>
      simp only [normalize]
      cases h : lastChild s p with
      | none => simp [isNormal, h]
      | some c => simp [isNormal]

theorem firstChild_none_lastChild (s : Storage) (n : Nat)
    (h : firstChild s n = none) : lastChild s n = none := by
  rw [firstChild, List.head?_eq_none_iff] at h
  rw [lastChild, h]
  rfl

end Synless

/-- C4: every location produced by the public constructors (`before`,
`after`, `before_children`, `after_children`) and by every navigation
operation (`prev`, `next`, `first`, `last`, `before_parent`,
`after_parent`, `inorder_next`, `inorder_prev`, `enter_text`, `exit_text`)
is in normal form: never `BeforeNode(n)` when `n` has a previous sibling,
never `BelowNode(p)` when `p` has any child, and `InText(n, i)` has `i`
clamped into `0..=text_len(n)`. (`first`/`last` can return the input
location, hence the normality hypothesis there.) -/
theorem c4_every_produced_location_is_normal (s : Synless.Storage) :
    (∀ n, Synless.isNormal s (Synless.before s n) = true) ∧
    (∀ n, Synless.isNormal s (Synless.after n) = true) ∧
    (∀ n l, Synless.beforeChildren s n = some l → Synless.isNormal s l = true) ∧
    (∀ n l, Synless.afterChildren s n = some l → Synless.isNormal s l = true) ∧
    (∀ l l', Synless.prevL s l = some l' → Synless.isNormal s l' = true) ∧
    (∀ l l', Synless.nextL s l = some l' → Synless.isNormal s l' = true) ∧
    (∀ l l', Synless.isNormal s l = true → Synless.firstL s l = some l' →
        Synless.isNormal s l' = true) ∧
    (∀ l l', Synless.isNormal s l = true → Synless.lastL s l = some l' →
        Synless.isNormal s l' = true) ∧
    (∀ l l', Synless.beforeParent s l = some l' → Synless.isNormal s l' = true) ∧
    (∀ l l', Synless.afterParent s l = some l' → Synless.isNormal s l' = true) ∧
    (∀ l l', Synless.inorderNext s l = some l' → Synless.isNormal s l' = true) ∧
    (∀ l l', Synless.inorderPrev s l = some l' → Synless.isNormal s l' = true) ∧
    (∀ l l', Synless.enterText s l = some l' → Synless.isNormal s l' = true) ∧
    (∀ l l', Synless.exitText l = some l' → Synless.isNormal s l' = true) := by
  open Synless in
  have hbc : ∀ n l, beforeChildren s n = some l → isNormal s l = true := by
    intro n l h
    rw [beforeChildren] at h
    split at h
    · exact Option.noConfusion h
    · cases hf : firstChild s n with
      | some fc =>
          rw [hf] at h
          obtain rfl := Option.some_inj.mp h
          exact normalize_isNormal s _
      | none =>
          rw [hf] at h
          obtain rfl := Option.some_inj.mp h
          simp [isNormal, firstChild_none_lastChild s n hf]
  have hac : ∀ n l, afterChildren s n = some l → isNormal s l = true := by
    intro n l h
    rw [afterChildren] at h
    split at h
    · exact Option.noConfusion h
    · cases hf : lastChild s n with
      | some lc =>
          rw [hf] at h
          obtain rfl := Option.some_inj.mp h
          rfl
      | none =>
          rw [hf] at h
          obtain rfl := Option.some_inj.mp h
          simp [isNormal, hf]
  refine ⟨fun n => normalize_isNormal s _, fun n => rfl, hbc, hac, ?_, ?_, ?_, ?_, ?_, ?_, ?_, ?_, ?_, ?_⟩
  · intro l l' h
    cases l <;> simp [prevL] at h
    obtain rfl := h
    exact normalize_isNormal s _
  · intro l l' h
    cases l with
    | inText n i => exact Option.noConfusion h
    | afterNode n =>
        obtain ⟨m, _, rfl⟩ := Option.map_eq_some'.mp h
        rfl
    | beforeNode n =>
        obtain rfl := Option.some_inj.mp h
        rfl
    | belowNode n => exact Option.noConfusion h
  · intro l l' hl h
    cases l with
    | inText n i => exact Option.noConfusion h
    | afterNode n =>
        obtain rfl := Option.some_inj.mp h
        exact normalize_isNormal s _
    | beforeNode n =>
        obtain rfl := Option.some_inj.mp h
        exact hl
    | belowNode n =>
        obtain rfl := Option.some_inj.mp h
        exact hl
  · intro l l' hl h
    cases l with
    | inText n i => exact Option.noConfusion h
    | afterNode n =>
        obtain rfl := Option.some_inj.mp h
        rfl
    | beforeNode n =>
        obtain rfl := Option.some_inj.mp h
        rfl
    | belowNode n =>
        obtain rfl := Option.some_inj.mp h
        exact hl
  · intro l l' h
    obtain ⟨p, _, rfl⟩ := Option.map_eq_some'.mp h
    exact normalize_isNormal s _
  · intro l l' h
    obtain ⟨p, _, rfl⟩ := Option.map_eq_some'.mp h
    rfl
  · intro l l' h
    rw [inorderNext] at h
    split at h
    · split at h
      · obtain rfl := Option.some_inj.mp h
        exact hbc _ _ (by assumption)
      · obtain rfl := Option.some_inj.mp h
        rfl
    · obtain ⟨p, _, rfl⟩ := Option.map_eq_some'.mp h
      rfl
  · intro l l' h
    rw [inorderPrev] at h
    split at h
    · split at h
      · obtain rfl := Option.some_inj.mp h
        exact hac _ _ (by assumption)
      · obtain rfl := Option.some_inj.mp h
        exact normalize_isNormal s _
    · obtain ⟨p, _, rfl⟩ := Option.map_eq_some'.mp h
      exact normalize_isNormal s _
  · intro l l' h
    cases l with
    | afterNode n =>
        obtain ⟨t, ht, rfl⟩ := Option.map_eq_some'.mp h
        simp [Synless.isNormal, Synless.textLen, ht]
    | inText n i => exact Option.noConfusion h
    | beforeNode n => exact Option.noConfusion h
    | belowNode n => exact Option.noConfusion h
  · intro l l' h
    cases l with
    | inText n i =>
        obtain rfl := Option.some_inj.mp h
        rfl
    | afterNode n => exact Option.noConfusion h
    | beforeNode n => exact Option.noConfusion h
    | belowNode n => exact Option.noConfusion h

namespace Synless

/-- A small concrete storage: listy node `0` with children `[1, 2]`;
node `1` is a fixed-arity leaf, node `2` is texty with text "ab". -/
def demoStorage : Storage :=
  ⟨fun n =>
    if n = 0 then some ⟨⟨Arity.listy SSort.any, SSort.any, false⟩, none, Payload.kids [1, 2]⟩
    else if n = 1 then some ⟨⟨Arity.fixed [], SSort.any, false⟩, some 0, Payload.kids []⟩
    else if n = 2 then some ⟨⟨Arity.texty, SSort.any, false⟩, some 0, Payload.text ['a', 'b']⟩
    else none, 3⟩

end Synless

/-- Witness for the C4 theorem: in the concrete storage, `first` from the
normal location `AfterNode(2)` yields `BeforeNode(1)`, which is in normal
form. -/
theorem c4_normal_form_witness :
    Synless.isNormal Synless.demoStorage (Synless.Loc.beforeNode 1) = true :=
  (c4_every_produced_location_is_normal Synless.demoStorage).2.2.2.2.2.2.1
    (Synless.Loc.afterNode 2) (Synless.Loc.beforeNode 1) (by decide) (by decide)

namespace Synless

/-! ## Mutation layer (modelled from the spec, §4.B) -/

def updData (s : Storage) (n : Nat) (d : NodeData) : Storage :=
  { s with arena := Function.update s.arena n (some d) }

/-- Write the child list of `p` (no-op on an absent node). -/
def updChildren (s : Storage) (p : Nat) (l : List Nat) : Storage :=
  match getData s p with
  | some d => updData s p { d with payload := Payload.kids l }
  | none => s

/-- Write the parent link of `n` (no-op on an absent node). -/
def updParent (s : Storage) (n : Nat) (po : Option Nat) : Storage :=
  match getData s n with
  | some d => updData s n { d with parent := po }
  | none => s

/-- Modelled from the spec: the required sort of the slot a node occupies,
from its parent's arity (`Fixed`: the slot's sort; `Listy`: the element
sort); `none` for a root (no constraint). -/
def slotSort (s : Storage) (n : Nat) : Option SSort :=
  match parentN s n with
  | none => none
  | some p =>
      match arityN s p with
      | some (Arity.fixed sorts) => sorts.get? (idxN s n)
      | some (Arity.listy σ) => some σ
      | _ => none

/-- Modelled from the spec: a construct satisfies a slot sort if it is a
hole, the slot is `Any`, or the sorts agree (§3, §4.A). -/
def sortAccepts (slot : SSort) (c : Construct) : Bool :=
  c.isHole || slot == SSort.any || c.sort == slot

/-- `new` may stand in `slotNode`'s slot. -/
def fitsSlot (s : Storage) (slotNode newNode : Nat) : Bool :=
  match slotSort s slotNode, (getData s newNode).map (·.construct) with
  | some σ, some c => sortAccepts σ c
  | none, some _ => true
  | _, none => false

/-- Modelled from the spec: `Node::swap` — rejects invalid nodes, a shared
root (cycle guard, §4.B), or a sort violation in either direction; then
exchanges the two nodes' positions (child-list entries and parent links). -/
def swapN (s : Storage) (a b : Nat) : Option Storage :=
  if ¬(isValidN s a = true ∧ isValidN s b = true) then none
  else if rootN s a = rootN s b then none
  else if ¬(fitsSlot s a b = true ∧ fitsSlot s b a = true) then none
  else
    let pa := parentN s a
    let ia := idxN s a
    let pb := parentN s b
    let ib := idxN s b
    let s1 := match pa with
      | some q => updChildren s q ((childrenN s q).set ia b)
      | none => s
    let s2 := match pb with
      | some q => updChildren s1 q ((childrenN s1 q).set ib a)
      | none => s1
    let s3 := updParent s2 a pb
    some (updParent s3 b pa)

/-- Modelled from the spec: `Node::insert_after` — requires a listy parent,
an accepted sort, a detached (root) `new` from a different tree. -/
def insertAfterN (s : Storage) (self new : Nat) : Option Storage := do
  let p ← parentN s self
  match arityN s p, (getData s new).map (·.construct) with
  | some (Arity.listy σ), some c =>
      if sortAccepts σ c && (parentN s new).isNone && !(rootN s new == rootN s self) then
        let s1 := updChildren s p ((childrenN s p).insertIdx (idxN s self + 1) new)
        some (updParent s1 new (some p))
      else none
  | _, _ => none

/-- Modelled from the spec: `Node::insert_before`. -/
def insertBeforeN (s : Storage) (self new : Nat) : Option Storage := do
  let p ← parentN s self
  match arityN s p, (getData s new).map (·.construct) with
  | some (Arity.listy σ), some c =>
      if sortAccepts σ c && (parentN s new).isNone && !(rootN s new == rootN s self) then
        let s1 := updChildren s p ((childrenN s p).insertIdx (idxN s self) new)
        some (updParent s1 new (some p))
      else none
  | _, _ => none

/-- Modelled from the spec: `Node::insert_last_child`. -/
def insertLastChildN (s : Storage) (p new : Nat) : Option Storage :=
  match arityN s p, (getData s new).map (·.construct) with
  | some (Arity.listy σ), some c =>
      if sortAccepts σ c && (parentN s new).isNone && !(rootN s new == rootN s p) then
        let s1 := updChildren s p (childrenN s p ++ [new])
        some (updParent s1 new (some p))
      else none
  | _, _ => none

/-- Modelled from the spec: `Node::detach` — remove from the parent's child
list and clear the parent link; fails on a root. -/
def detachN (s : Storage) (n : Nat) : Option Storage := do
  let p ← parentN s n
  let s1 := updChildren s p ((childrenN s p).eraseIdx (idxN s n))
  some (updParent s1 n none)

/-- Modelled from the spec: the hole construct — fits any slot. -/
def holeConstruct : Construct := ⟨Arity.fixed [], SSort.any, true⟩

/-- Modelled from the spec: `Node::new_hole` — a fresh parentless hole. -/
def newHole (s : Storage) : Nat × Storage :=
  (s.nextIdx,
   { arena := Function.update s.arena s.nextIdx
       (some ⟨holeConstruct, none, Payload.kids []⟩)
     nextIdx := s.nextIdx + 1 })

/-- `Location::insert` (`src/src/tree/location.rs:248`): requires a parent;
`bug!` on a texty parent (modelled as failure); under a `Fixed` parent it
swaps the right-neighbour with `new` and returns the displaced node; under
a `Listy` parent, it inserts by variant; on success the cursor becomes
`AfterNode(new)`. -/
def insertL (l : Loc) (newNode : Nat) (s : Storage) : Option (Option Nat × Loc × Storage) := do
  let p ← parentNode s l
  match arityN s p with
  | some Arity.texty => none
  | some (Arity.fixed _) => do
      let oldNode ← rightNode s l
      match swapN s newNode oldNode with
      | some s' => some (some oldNode, after newNode, s')
      | none => none
  | some (Arity.listy _) =>
      let res : Option Storage :=
        match l with
        | Loc.inText _ _ => none
        | Loc.afterNode leftN => insertAfterN s leftN newNode
        | Loc.beforeNode rightN => insertBeforeN s rightN newNode
        | Loc.belowNode _ => insertLastChildN s p newNode
      match res with
      | some s' => some (none, after newNode, s')
      | none => none
  | none => none

/-- `Location::delete_neighbor` (`src/src/tree/location.rs:282`). -/
def deleteNeighbor (l : Loc) (onLeft : Bool) (s : Storage) : Option (Nat × Storage) := do
  let p ← parentNode s l
  let node ← if onLeft then leftNode l else rightNode s l
  match arityN s p with
  | some (Arity.fixed _) =>
      let hs := newHole s
      match swapN hs.2 node hs.1 with
      | some s2 => some (node, s2)
      | none => none
  | some (Arity.listy _) =>
      match detachN s node with
      | some s2 => some (node, s2)
      | none => none
  | some Arity.texty => none
  | none => none

/-- `Location::bookmark` is the identity on the inner location; bookmark
validation (`src/src/tree/location.rs:324`): valid iff the node is live and
shares a root with the current location; the result is normalized. The
function reads the storage and returns only a location, so it never
mutates the tree. -/
def validateBookmark (self : Loc) (mark : Loc) (s : Storage) : Option Loc :=
  if isValidN s (locNode mark) = true ∧ rootN s (locNode mark) = rootNode s self then
    some (normalize s mark)
  else none

end Synless

namespace Synless

theorem getData_updData_self (s : Storage) (n : Nat) (d : NodeData) :
    getData (updData s n d) n = some d := by
  simp [getData, updData]

theorem getData_updData_ne (s : Storage) (n m : Nat) (d : NodeData) (h : m ≠ n) :
    getData (updData s n d) m = getData s m := by
  simp [getData, updData, Function.update_noteq h]

theorem getData_updChildren_ne (s : Storage) (p m : Nat) (l : List Nat) (h : m ≠ p) :
    getData (updChildren s p l) m = getData s m := by
  rw [updChildren]
  cases hd : getData s p with
  | none => rfl
  | some d => exact getData_updData_ne _ _ _ _ h

theorem getData_updParent_ne (s : Storage) (n m : Nat) (po : Option Nat) (h : m ≠ n) :
    getData (updParent s n po) m = getData s m := by
  rw [updParent]
  cases hd : getData s n with
  | none => rfl
  | some d => exact getData_updData_ne _ _ _ _ h

theorem childrenN_congr {s s' : Storage} {n : Nat}
    (h : getData s' n = getData s n) : childrenN s' n = childrenN s n := by
  rw [childrenN, childrenN, h]

theorem parentN_congr {s s' : Storage} {n : Nat}
    (h : getData s' n = getData s n) : parentN s' n = parentN s n := by
  rw [parentN, parentN, h]

theorem childrenN_updChildren_self (s : Storage) (p : Nat) (l : List Nat)
    (h : (getData s p).isSome = true) : childrenN (updChildren s p l) p = l := by
  rw [updChildren]
  cases hd : getData s p with
  | none => rw [hd] at h; exact absurd h (by simp)
  | some d => rw [childrenN, getData_updData_self]

theorem parentN_updChildren_self (s : Storage) (p : Nat) (l : List Nat) :
    parentN (updChildren s p l) p = parentN s p := by
  rw [updChildren]
  cases hd : getData s p with
  | none => rfl
  | some d => rw [parentN, getData_updData_self, parentN, hd]; rfl

theorem parentN_updParent_self (s : Storage) (n : Nat) (po : Option Nat)
    (h : (getData s n).isSome = true) : parentN (updParent s n po) n = po := by
  rw [updParent]
  cases hd : getData s n with
  | none => rw [hd] at h; exact absurd h (by simp)
  | some d => rw [parentN, getData_updData_self]; rfl

theorem isValidN_updParent (s : Storage) (n m : Nat) (po : Option Nat) :
    isValidN (updParent s n po) m = isValidN s m := by
  rw [updParent]
  cases hd : getData s n with
  | none => rfl
  | some d =>
      by_cases h : m = n
      · subst h
        rw [isValidN, getData_updData_self, isValidN, hd]
        rfl
      · rw [isValidN, getData_updData_ne _ _ _ _ h, isValidN]

/-- The effect of a successful modelled `Node::swap` of a parentless `a`
with a child `b` of `p`: the child entry is overwritten in place and the
parent links exchanged. -/
theorem swapN_effect (s s' : Storage) (a b p : Nat)
    (hsw : swapN s a b = some s')
    (hra : parentN s a = none) (hpb : parentN s b = some p)
    (hap : a ≠ p) (hbp : b ≠ p) (hpv : (getData s p).isSome = true)
    (hav : isValidN s a = true) (hbv : isValidN s b = true) :
    childrenN s' p = (childrenN s p).set (idxN s b) a ∧
    parentN s' a = some p ∧
    parentN s' b = none ∧
    a ≠ b := by
  have hab : a ≠ b := by
    intro h
    rw [h, hpb] at hra
    exact Option.noConfusion hra
  rw [swapN] at hsw
  split at hsw
  · exact Option.noConfusion hsw
  · split at hsw
    · exact Option.noConfusion hsw
    · split at hsw
      · exact Option.noConfusion hsw
      · simp only [hra, hpb] at hsw
        obtain rfl := Option.some_inj.mp hsw
        -- s2 = updChildren s p (set (idxN s b) a); then parents
        set s2 : Storage := updChildren s p ((childrenN s p).set (idxN s b) a) with hs2
        have hs2p : (getData s2 p).isSome = true := by
          rw [hs2, updChildren]
          cases hd : getData s p with
          | none => rw [hd] at hpv; exact absurd hpv (by simp)
          | some d => rw [getData_updData_self]; rfl
        have hs2a : getData s2 a = getData s a := by
          rw [hs2]; exact getData_updChildren_ne _ _ _ _ hap
        have hs2b : getData s2 b = getData s b := by
          rw [hs2]; exact getData_updChildren_ne _ _ _ _ hbp
        refine ⟨?_, ?_, ?_, hab⟩
        · -- children of p unchanged by the two parent writes
          have h3 : getData (updParent s2 a (some p)) p = getData s2 p :=
            getData_updParent_ne _ _ _ _ (Ne.symm hap)
          have h4 : getData (updParent (updParent s2 a (some p)) b none) p
              = getData (updParent s2 a (some p)) p :=
            getData_updParent_ne _ _ _ _ (Ne.symm hbp)
          rw [childrenN_congr (h4.trans h3), hs2]
          exact childrenN_updChildren_self s p _ hpv
        · -- a's parent becomes p
          have h3 : parentN (updParent s2 a (some p)) a = some p := by
            refine parentN_updParent_self s2 a (some p) ?_
            rw [hs2a]
            rw [isValidN] at hav
            exact hav
          have h4 : getData (updParent (updParent s2 a (some p)) b none) a
              = getData (updParent s2 a (some p)) a :=
            getData_updParent_ne _ _ _ _ hab
          rw [parentN_congr h4, h3]
        · -- b's parent is cleared
          refine parentN_updParent_self _ b none ?_
          rw [getData_updParent_ne _ _ _ _ (Ne.symm hab), hs2b]
          rw [isValidN] at hbv
          exact hbv

end Synless

namespace Synless

theorem swapN_valid {s s' : Storage} {a b : Nat} (h : swapN s a b = some s') :
    isValidN s a = true ∧ isValidN s b = true := by
  rw [swapN] at h
  split at h
  · exact Option.noConfusion h
  · next hc =>
      push_neg at hc
      exact hc

end Synless

namespace Synless

theorem swapN_none_of_unfit {s : Storage} {a b : Nat}
    (h : fitsSlot s b a = false) : swapN s a b = none := by
  rw [swapN]
  split
  · rfl
  · split
    · rfl
    · split
      · rfl
      · next hc =>
          push_neg at hc
          rw [hc.2] at h
          exact Bool.noConfusion h

end Synless

/-- C5: `Location::insert(new)` requires a parent. Under a `Fixed`-arity
parent it swaps the right-neighbour with `new` (the child entry is
overwritten in place) and returns the displaced node; under a `Listy`
parent it inserts `new` after the left node (`AfterNode`), before the
right node (`BeforeNode`), or as last child (`BelowNode`); on every
success the cursor becomes `AfterNode(new)`; it fails when the sort does
not match or the parent is texty, producing no new tree. -/
theorem c5_insert_semantics (s : Synless.Storage) (l : Synless.Loc) (new p : Nat)
    (hp : Synless.parentNode s l = some p) :
    (Synless.arityN s p = some Synless.Arity.texty → Synless.insertL l new s = none) ∧
    (∀ sorts old, Synless.arityN s p = some (Synless.Arity.fixed sorts) →
      Synless.rightNode s l = some old →
      Synless.parentN s old = some p → Synless.parentN s new = none →
      new ≠ p → old ≠ p → (Synless.getData s p).isSome = true →
      ∀ res, Synless.insertL l new s = some res →
        ∃ s2, res = (some old, Synless.after new, s2) ∧
          Synless.childrenN s2 p
            = (Synless.childrenN s p).set (Synless.idxN s old) new ∧
          Synless.parentN s2 new = some p ∧ Synless.parentN s2 old = none) ∧
    (∀ sorts old, Synless.arityN s p = some (Synless.Arity.fixed sorts) →
      Synless.rightNode s l = some old → Synless.fitsSlot s old new = false →
      Synless.insertL l new s = none) ∧
    (∀ σ, Synless.arityN s p = some (Synless.Arity.listy σ) →
      (Synless.getData s p).isSome = true → new ≠ p →
      ∀ res, Synless.insertL l new s = some res →
        ∃ s2, res = (none, Synless.after new, s2) ∧
          Synless.parentN s2 new = some p ∧
          ((∃ ln, l = Synless.Loc.afterNode ln ∧
              Synless.childrenN s2 p
                = (Synless.childrenN s p).insertIdx (Synless.idxN s ln + 1) new) ∨
           (∃ rn, l = Synless.Loc.beforeNode rn ∧
              Synless.childrenN s2 p
                = (Synless.childrenN s p).insertIdx (Synless.idxN s rn) new) ∨
           (∃ bn, l = Synless.Loc.belowNode bn ∧
              Synless.childrenN s2 p = Synless.childrenN s p ++ [new]))) ∧
    (∀ σ c, Synless.arityN s p = some (Synless.Arity.listy σ) →
      (Synless.getData s new).map (·.construct) = some c →
      Synless.sortAccepts σ c = false →
      Synless.insertL l new s = none) := by
  open Synless in
  refine ⟨?_, ?_, ?_, ?_, ?_⟩
  · intro ht
    rw [insertL, hp]
    simp only [Option.bind_eq_bind, Option.some_bind]
    rw [ht]
  · intro sorts old har hro hpo hpn hnewp holdp hpv res hres
    rw [insertL, hp] at hres
    simp only [Option.bind_eq_bind, Option.some_bind] at hres
    rw [har, hro] at hres
    simp only [Option.bind_eq_bind, Option.some_bind] at hres
    cases hsw : swapN s new old with
    | none => rw [hsw] at hres; exact Option.noConfusion hres
    | some s2 =>
        rw [hsw] at hres
        obtain rfl := Option.some_inj.mp hres
        obtain ⟨hav, hbv⟩ := swapN_valid hsw
        obtain ⟨h1, h2, h3, _⟩ :=
          swapN_effect s s2 new old p hsw hpn hpo hnewp holdp hpv hav hbv
        exact ⟨s2, rfl, h1, h2, h3⟩
  · intro sorts old har hro hfits
    rw [insertL, hp]
    simp only [Option.bind_eq_bind, Option.some_bind]
    rw [har, hro]
    simp only [Option.bind_eq_bind, Option.some_bind]
    rw [swapN_none_of_unfit hfits]
  · intro σ har hpv hnewp res hres
    rw [insertL, hp] at hres
    simp only [Option.bind_eq_bind, Option.some_bind] at hres
    rw [har] at hres
    cases l with
    | inText n i => simp at hres
    | afterNode ln =>
        simp only at hres
        cases hins : insertAfterN s ln new with
        | none => rw [hins] at hres; exact Option.noConfusion hres
        | some s2 =>
            rw [hins] at hres
            obtain rfl := Option.some_inj.mp hres
            -- unpack the modelled insert_after
            have hpl : parentN s ln = some p := hp
            rw [insertAfterN, hpl] at hins
            simp only [Option.bind_eq_bind, Option.some_bind] at hins
            split at hins
            · split at hins
              · obtain rfl := Option.some_inj.mp hins
                have hnv : (getData s new).isSome = true := by
                  rename_i heq2 _
                  cases hg : getData s new with
                  | none => rw [hg] at heq2; exact Option.noConfusion heq2
                  | some d => rfl
                refine ⟨_, rfl, ?_, Or.inl ⟨ln, rfl, ?_⟩⟩
                · rw [parentN_updParent_self]
                  rw [getData_updChildren_ne _ _ _ _ hnewp]
                  exact hnv
                · have h4 : getData (updParent (updChildren s p
                      ((childrenN s p).insertIdx (idxN s ln + 1) new)) new (some p)) p
                      = getData (updChildren s p
                      ((childrenN s p).insertIdx (idxN s ln + 1) new)) p :=
                    getData_updParent_ne _ _ _ _ (Ne.symm hnewp)
                  rw [childrenN_congr h4]
                  exact childrenN_updChildren_self s p _ hpv
              · exact Option.noConfusion hins
            · exact Option.noConfusion hins
    | beforeNode rn =>
        simp only at hres
        cases hins : insertBeforeN s rn new with
        | none => rw [hins] at hres; exact Option.noConfusion hres
        | some s2 =>
            rw [hins] at hres
            obtain rfl := Option.some_inj.mp hres
            have hpl : parentN s rn = some p := hp
            rw [insertBeforeN, hpl] at hins
            simp only [Option.bind_eq_bind, Option.some_bind] at hins
            split at hins
            · split at hins
              · obtain rfl := Option.some_inj.mp hins
                have hnv : (getData s new).isSome = true := by
                  rename_i heq2 _
                  cases hg : getData s new with
                  | none => rw [hg] at heq2; exact Option.noConfusion heq2
                  | some d => rfl
                refine ⟨_, rfl, ?_, Or.inr (Or.inl ⟨rn, rfl, ?_⟩)⟩
                · rw [parentN_updParent_self]
                  rw [getData_updChildren_ne _ _ _ _ hnewp]
                  exact hnv
                · have h4 : getData (updParent (updChildren s p
                      ((childrenN s p).insertIdx (idxN s rn) new)) new (some p)) p
                      = getData (updChildren s p
                      ((childrenN s p).insertIdx (idxN s rn) new)) p :=
                    getData_updParent_ne _ _ _ _ (Ne.symm hnewp)
                  rw [childrenN_congr h4]
                  exact childrenN_updChildren_self s p _ hpv
              · exact Option.noConfusion hins
            · exact Option.noConfusion hins
    | belowNode bn =>
        simp only at hres
        have hbp : bn = p := Option.some_inj.mp hp
        subst hbp
        cases hins : insertLastChildN s bn new with
        | none => rw [hins] at hres; exact Option.noConfusion hres
        | some s2 =>
            rw [hins] at hres
            obtain rfl := Option.some_inj.mp hres
            rw [insertLastChildN] at hins
            split at hins
            · split at hins
              · obtain rfl := Option.some_inj.mp hins
                have hnv : (getData s new).isSome = true := by
                  rename_i heq2 _
                  cases hg : getData s new with
                  | none => rw [hg] at heq2; exact Option.noConfusion heq2
                  | some d => rfl
                refine ⟨_, rfl, ?_, Or.inr (Or.inr ⟨bn, rfl, ?_⟩)⟩
                · rw [parentN_updParent_self]
                  rw [getData_updChildren_ne _ _ _ _ hnewp]
                  exact hnv
                · have h4 : getData (updParent (updChildren s bn
                      (childrenN s bn ++ [new])) new (some bn)) bn
                      = getData (updChildren s bn (childrenN s bn ++ [new])) bn :=
                    getData_updParent_ne _ _ _ _ (Ne.symm hnewp)
                  rw [childrenN_congr h4]
                  exact childrenN_updChildren_self s bn _ hpv
              · exact Option.noConfusion hins
            · exact Option.noConfusion hins
  · intro σ c har hc hacc
    rw [insertL, hp]
    simp only [Option.bind_eq_bind, Option.some_bind]
    rw [har]
    cases l with
    | inText n i => simp
    | afterNode ln =>
        simp only
        rw [insertAfterN, show parentN s ln = some p from hp]
        simp only [Option.bind_eq_bind, Option.some_bind]
        rw [har, hc]
        simp [hacc]
    | beforeNode rn =>
        simp only
        rw [insertBeforeN, show parentN s rn = some p from hp]
        simp only [Option.bind_eq_bind, Option.some_bind]
        rw [har, hc]
        simp [hacc]
    | belowNode bn =>
        simp only
        obtain rfl : p = bn := (Option.some_inj.mp hp).symm
        rw [insertLastChildN, har, hc]
        simp [hacc]

namespace Synless

/-- `demoStorage` plus a detached root node `10` (fits any slot). -/
def demoStorage2 : Storage :=
  ⟨fun n =>
    if n = 0 then some ⟨⟨Arity.listy SSort.any, SSort.any, false⟩, none, Payload.kids [1, 2]⟩
    else if n = 1 then some ⟨⟨Arity.fixed [], SSort.any, false⟩, some 0, Payload.kids []⟩
    else if n = 2 then some ⟨⟨Arity.texty, SSort.any, false⟩, some 0, Payload.text ['a', 'b']⟩
    else if n = 10 then some ⟨⟨Arity.fixed [], SSort.any, false⟩, none, Payload.kids []⟩
    else none, 11⟩

/-- The storage produced by inserting `10` after node `1` in `demoStorage2`. -/
def demoInsertResult : Storage :=
  updParent (updChildren demoStorage2 0 (List.insertIdx (idxN demoStorage2 1 + 1) 10 (childrenN demoStorage2 0))) 10 (some 0)

end Synless

/-- Witness for the C5 theorem: inserting detached node `10` at
`AfterNode(1)` under the listy parent `0` of the concrete storage. -/
theorem c5_insert_witness :
    ∃ s2, ((none : Option Nat), Synless.after 10, Synless.demoInsertResult)
        = (none, Synless.after 10, s2) ∧
      Synless.parentN s2 10 = some 0 ∧
      ((∃ ln, Synless.Loc.afterNode 1 = Synless.Loc.afterNode ln ∧
          Synless.childrenN s2 0
            = (Synless.childrenN Synless.demoStorage2 0).insertIdx
                (Synless.idxN Synless.demoStorage2 ln + 1) 10) ∨
       (∃ rn, Synless.Loc.afterNode 1 = Synless.Loc.beforeNode rn ∧
          Synless.childrenN s2 0
            = (Synless.childrenN Synless.demoStorage2 0).insertIdx
                (Synless.idxN Synless.demoStorage2 rn) 10) ∨
       (∃ bn, Synless.Loc.afterNode 1 = Synless.Loc.belowNode bn ∧
          Synless.childrenN s2 0 = Synless.childrenN Synless.demoStorage2 0 ++ [10])) :=
  (c5_insert_semantics Synless.demoStorage2 (Synless.Loc.afterNode 1) 10 0 rfl).2.2.2.1
    Synless.SSort.any rfl rfl (by decide)
    (none, Synless.after 10, Synless.demoInsertResult) rfl

namespace Synless

/-- The effect of a successful modelled `Node::swap` of a child `a` of `p`
with a parentless `b`: the child entry is overwritten in place and the
parent links exchanged. -/
theorem swapN_effect2 (s s' : Storage) (a b p : Nat)
    (hsw : swapN s a b = some s')
    (hpa : parentN s a = some p) (hrb : parentN s b = none)
    (hap : a ≠ p) (hbp : b ≠ p) (hpv : (getData s p).isSome = true)
    (hav : isValidN s a = true) (hbv : isValidN s b = true) :
    childrenN s' p = (childrenN s p).set (idxN s a) b ∧
    parentN s' a = none ∧
    parentN s' b = some p ∧
    a ≠ b := by
  have hab : a ≠ b := by
    intro h
    rw [h, hrb] at hpa
    exact Option.noConfusion hpa
  rw [swapN] at hsw
  split at hsw
  · exact Option.noConfusion hsw
  · split at hsw
    · exact Option.noConfusion hsw
    · split at hsw
      · exact Option.noConfusion hsw
      · simp only [hpa, hrb] at hsw
        obtain rfl := Option.some_inj.mp hsw
        set s2 : Storage := updChildren s p ((childrenN s p).set (idxN s a) b) with hs2
        have hs2a : getData s2 a = getData s a := by
          rw [hs2]; exact getData_updChildren_ne _ _ _ _ hap
        have hs2b : getData s2 b = getData s b := by
          rw [hs2]; exact getData_updChildren_ne _ _ _ _ hbp
        refine ⟨?_, ?_, ?_, hab⟩
        · have h3 : getData (updParent s2 a none) p = getData s2 p :=
            getData_updParent_ne _ _ _ _ (Ne.symm hap)
          have h4 : getData (updParent (updParent s2 a none) b (some p)) p
              = getData (updParent s2 a none) p :=
            getData_updParent_ne _ _ _ _ (Ne.symm hbp)
          rw [childrenN_congr (h4.trans h3), hs2]
          exact childrenN_updChildren_self s p _ hpv
        · have h3 : parentN (updParent s2 a none) a = none := by
            refine parentN_updParent_self s2 a none ?_
            rw [hs2a]
            rw [isValidN] at hav
            exact hav
          have h4 : getData (updParent (updParent s2 a none) b (some p)) a
              = getData (updParent s2 a none) a :=
            getData_updParent_ne _ _ _ _ hab
          rw [parentN_congr h4, h3]
        · refine parentN_updParent_self _ b (some p) ?_
          rw [getData_updParent_ne _ _ _ _ (Ne.symm hab), hs2b]
          rw [isValidN] at hbv
          exact hbv

theorem getData_newHole_ne (s : Storage) (m : Nat) (h : m ≠ s.nextIdx) :
    getData (newHole s).2 m = getData s m := by
  simp [newHole, getData, Function.update_noteq h]

theorem getData_newHole_self (s : Storage) :
    getData (newHole s).2 s.nextIdx = some ⟨holeConstruct, none, Payload.kids []⟩ := by
  simp [newHole, getData]

end Synless

namespace Synless

theorem swapN_succeeds (s : Storage) (a b : Nat)
    (hav : isValidN s a = true) (hbv : isValidN s b = true)
    (hroots : ¬ rootN s a = rootN s b)
    (hfa : fitsSlot s a b = true) (hfb : fitsSlot s b a = true) :
    ∃ s2, swapN s a b = some s2 := by
  rw [swapN]
  rw [if_neg (fun hcon => hcon ⟨hav, hbv⟩), if_neg hroots,
      if_neg (fun hcon => hcon ⟨hfa, hfb⟩)]
  exact ⟨_, rfl⟩

theorem rootN_newHole_self (s : Storage) :
    rootN (newHole s).2 s.nextIdx = s.nextIdx := by
  have h1 : (newHole s).2.nextIdx = s.nextIdx + 1 := rfl
  rw [rootN, h1]
  rw [rootFuelN]
  have h2 : parentN (newHole s).2 s.nextIdx = none := by
    rw [parentN, getData_newHole_self]
    rfl
  rw [h2]

end Synless

/-- C6: `delete_neighbor` removes the adjacent node on the chosen side and
returns it; under a `Fixed`-arity parent the removed node is replaced in
place by the fresh hole (so the parent keeps exactly its number of
children), and under a `Listy` parent the removed node is detached (the
child list shrinks by one). In both cases the removed node becomes a
parentless root, ready for the clipboard. -/
theorem c6_delete_neighbor_semantics (s : Synless.Storage) (l : Synless.Loc)
    (p node : Nat) (onLeft : Bool)
    (hp : Synless.parentNode s l = some p)
    (hnode : (if onLeft then Synless.leftNode l else Synless.rightNode s l) = some node)
    (hpn : Synless.parentN s node = some p) (hnp : node ≠ p)
    (hpv : (Synless.getData s p).isSome = true)
    (hnv : Synless.isValidN s node = true) :
    (∀ sorts, Synless.arityN s p = some (Synless.Arity.fixed sorts) →
      p ≠ s.nextIdx → node ≠ s.nextIdx →
      Synless.rootN (Synless.newHole s).2 node ≠ s.nextIdx →
      ∃ s2, Synless.deleteNeighbor l onLeft s = some (node, s2) ∧
        Synless.childrenN s2 p
          = (Synless.childrenN s p).set (Synless.idxN s node) s.nextIdx ∧
        (Synless.childrenN s2 p).length = (Synless.childrenN s p).length ∧
        Synless.parentN s2 node = none ∧
        Synless.parentN s2 s.nextIdx = some p ∧
        (Synless.getData s2 s.nextIdx).map (·.construct) = some Synless.holeConstruct) ∧
    (∀ σ, Synless.arityN s p = some (Synless.Arity.listy σ) →
      ∃ s2, Synless.deleteNeighbor l onLeft s = some (node, s2) ∧
        Synless.childrenN s2 p
          = (Synless.childrenN s p).eraseIdx (Synless.idxN s node) ∧
        (node ∈ Synless.childrenN s p →
          (Synless.childrenN s2 p).length + 1 = (Synless.childrenN s p).length) ∧
        Synless.parentN s2 node = none) := by
  open Synless in
  constructor
  · intro sorts har hpfresh hnfresh hroot
    set hole := s.nextIdx with hhole
    set s1 := (newHole s).2 with hs1
    -- the hole-extended storage agrees with s away from the fresh index
    have hg : ∀ m, m ≠ hole → getData s1 m = getData s m := by
      intro m hm
      rw [hs1]
      exact getData_newHole_ne s m hm
    have hs1node : parentN s1 node = some p := by
      rw [parentN, hg node hnfresh, ← parentN]
      exact hpn
    have hs1hole : parentN s1 hole = none := by
      rw [parentN, hs1, getData_newHole_self]
      rfl
    have hs1nodev : isValidN s1 node = true := by
      rw [isValidN, hg node hnfresh, ← isValidN]
      exact hnv
    have hs1holev : isValidN s1 hole = true := by
      rw [isValidN, hs1, getData_newHole_self]
      rfl
    have hs1pv : (getData s1 p).isSome = true := by
      rw [hg p hpfresh]
      exact hpv
    have hs1children : childrenN s1 p = childrenN s p :=
      childrenN_congr (hg p hpfresh)
    have hs1idx : idxN s1 node = idxN s node := by
      rw [idxN, idxN, siblingsN, siblingsN, hs1node, hpn]
      show List.indexOf node (childrenN s1 p) = List.indexOf node (childrenN s p)
      rw [hs1children]
    -- the swap checks pass
    have hroots : ¬ rootN s1 node = rootN s1 hole := by
      have h2 : rootN s1 hole = hole := by
        rw [hs1, hhole]
        exact rootN_newHole_self s
      rw [h2]
      exact hroot
    have hfa : fitsSlot s1 node hole = true := by
      rw [fitsSlot]
      have hc : (getData s1 hole).map (·.construct) = some holeConstruct := by
        rw [hs1, hhole, getData_newHole_self]
        rfl
      rw [hc]
      cases hss : slotSort s1 node with
      | none => rfl
      | some σ => simp [sortAccepts, holeConstruct]
    have hfb : fitsSlot s1 hole node = true := by
      rw [fitsSlot, slotSort, hs1hole]
      have : (getData s1 node).isSome = true := hs1nodev
      cases hgn : getData s1 node with
      | none => rw [hgn] at this; exact absurd this (by simp)
      | some d => rfl
    obtain ⟨s2, hsw⟩ := swapN_succeeds s1 node hole hs1nodev hs1holev hroots hfa hfb
    obtain ⟨h1, h2, h3, hab⟩ :=
      swapN_effect2 s1 s2 node hole p hsw hs1node hs1hole hnp
        (fun h => hpfresh h.symm) hs1pv hs1nodev hs1holev
    refine ⟨s2, ?_, ?_, ?_, h2, h3, ?_⟩
    · -- the delete_neighbor computation
      rw [deleteNeighbor, hp]
      simp only [Option.bind_eq_bind, Option.some_bind]
      cases onLeft with
      | false =>
        rw [if_neg Bool.false_ne_true] at hnode
        rw [if_neg Bool.false_ne_true, hnode]
        simp only [Option.some_bind, har]
        rw [show (newHole s).1 = hole from rfl,
            show ((newHole s).2 : Storage) = s1 from rfl, hsw]
      | true =>
        rw [if_pos rfl] at hnode
        rw [if_pos rfl, hnode]
        simp only [Option.some_bind, har]
        rw [show (newHole s).1 = hole from rfl,
            show ((newHole s).2 : Storage) = s1 from rfl, hsw]
    · rw [h1, hs1children, hs1idx]
    · rw [h1, hs1children, hs1idx, List.length_set]
    · -- the hole keeps the hole construct
      -- s2 is built from s1 by child/parent writes; read the hole entry
      have hstep : getData s2 hole = some ⟨holeConstruct, some p, Payload.kids []⟩ := by
        -- replay the swap result shape
        rw [swapN] at hsw
        rw [if_neg (fun hcon => hcon ⟨hs1nodev, hs1holev⟩), if_neg hroots,
            if_neg (fun hcon => hcon ⟨hfa, hfb⟩)] at hsw
        simp only [hs1node, hs1hole] at hsw
        obtain rfl := Option.some_inj.mp hsw
        have hx1 : getData (updChildren s1 p ((childrenN s1 p).set (idxN s1 node) hole)) hole
            = getData s1 hole :=
          getData_updChildren_ne _ _ _ _ (fun h => hpfresh h.symm)
        have hx2 : getData (updParent (updChildren s1 p
            ((childrenN s1 p).set (idxN s1 node) hole)) node none) hole
            = getData s1 hole := by
          rw [getData_updParent_ne _ _ _ _ (fun h => hab h.symm), hx1]
        rw [updParent, hx2]
        rw [hs1, hhole, getData_newHole_self]
        rw [getData_updData_self]
      rw [hstep]
      rfl
  · intro σ har
    refine ⟨updParent (updChildren s p ((childrenN s p).eraseIdx (idxN s node))) node none,
      ?_, ?_, ?_, ?_⟩
    · have hdet : detachN s node = some (updParent (updChildren s p
          ((childrenN s p).eraseIdx (idxN s node))) node none) := by
        rw [detachN, hpn]
        simp only [Option.bind_eq_bind, Option.some_bind]
      rw [deleteNeighbor, hp]
      simp only [Option.bind_eq_bind, Option.some_bind]
      cases onLeft with
      | false =>
        rw [if_neg Bool.false_ne_true] at hnode
        rw [if_neg Bool.false_ne_true, hnode]
        simp only [Option.some_bind, har]
        rw [hdet]
      | true =>
        rw [if_pos rfl] at hnode
        rw [if_pos rfl, hnode]
        simp only [Option.some_bind, har]
        rw [hdet]
    · have h4 : getData (updParent (updChildren s p
          ((childrenN s p).eraseIdx (idxN s node))) node none) p
          = getData (updChildren s p ((childrenN s p).eraseIdx (idxN s node))) p :=
        getData_updParent_ne _ _ _ _ (Ne.symm hnp)
      rw [childrenN_congr h4]
      exact childrenN_updChildren_self s p _ hpv
    · intro hmem
      have h4 : getData (updParent (updChildren s p
          ((childrenN s p).eraseIdx (idxN s node))) node none) p
          = getData (updChildren s p ((childrenN s p).eraseIdx (idxN s node))) p :=
        getData_updParent_ne _ _ _ _ (Ne.symm hnp)
      rw [childrenN_congr h4, childrenN_updChildren_self s p _ hpv]
      have hlt : idxN s node < (childrenN s p).length := by
        rw [idxN, show siblingsN s node = childrenN s p by rw [siblingsN, hpn]]
        exact List.indexOf_lt_length.mpr hmem
      rw [List.length_eraseIdx]
      simp [hlt]
      omega
    · refine parentN_updParent_self _ node none ?_
      rw [getData_updChildren_ne _ _ _ _ hnp]
      exact hnv

namespace Synless

/-- A demo storage with a `Fixed`-arity root `0` holding children `[1, 2]`. -/
def demoStorage3 : Storage :=
  ⟨fun n =>
    if n = 0 then some ⟨⟨Arity.fixed [SSort.any, SSort.any], SSort.any, false⟩, none, Payload.kids [1, 2]⟩
    else if n = 1 then some ⟨⟨Arity.fixed [], SSort.any, false⟩, some 0, Payload.kids []⟩
    else if n = 2 then some ⟨⟨Arity.fixed [], SSort.any, false⟩, some 0, Payload.kids []⟩
    else none, 3⟩

end Synless

/-- Witness for C6: backspacing at `AfterNode(1)` under the fixed-arity
parent `0` of `demoStorage3` removes node `1`, replacing it in place by the
fresh hole `3`, with the child count preserved. -/
theorem c6_delete_neighbor_witness :
    ∃ s2, Synless.deleteNeighbor (Synless.after 1) true Synless.demoStorage3
        = some (1, s2) ∧
      Synless.childrenN s2 0
        = (Synless.childrenN Synless.demoStorage3 0).set
            (Synless.idxN Synless.demoStorage3 1) Synless.demoStorage3.nextIdx ∧
      (Synless.childrenN s2 0).length
        = (Synless.childrenN Synless.demoStorage3 0).length ∧
      Synless.parentN s2 1 = none ∧
      Synless.parentN s2 Synless.demoStorage3.nextIdx = some 0 ∧
      (Synless.getData s2 Synless.demoStorage3.nextIdx).map (·.construct)
        = some Synless.holeConstruct :=
  (c6_delete_neighbor_semantics Synless.demoStorage3 (Synless.after 1) 0 1 true
      rfl rfl rfl (by decide) rfl rfl).1
    [Synless.SSort.any, Synless.SSort.any] rfl (by decide) (by decide) (by decide)

/-- C7: `validate_bookmark` returns `Some(location)` if and only if the
bookmarked node is still valid and has the same root as the current
location's node; the returned location is the bookmark's position put into
normal form (and hence is normal), and validation reads the storage without
mutating it. -/
theorem c7_validate_bookmark_semantics (s : Synless.Storage)
    (self mark : Synless.Loc) :
    ((Synless.validateBookmark self mark s).isSome = true ↔
      (Synless.isValidN s (Synless.locNode mark) = true ∧
       Synless.rootN s (Synless.locNode mark) = Synless.rootNode s self)) ∧
    (∀ loc, Synless.validateBookmark self mark s = some loc →
      loc = Synless.normalize s mark ∧ Synless.isNormal s loc = true) := by
  by_cases hc : (Synless.isValidN s (Synless.locNode mark) = true ∧
      Synless.rootN s (Synless.locNode mark) = Synless.rootNode s self)
  · refine ⟨⟨fun _ => hc, fun _ => ?_⟩, fun loc hl => ?_⟩
    · rw [Synless.validateBookmark, if_pos hc]
      rfl
    · rw [Synless.validateBookmark, if_pos hc] at hl
      obtain rfl : Synless.normalize s mark = loc := Option.some_inj.mp hl
      exact ⟨rfl, Synless.normalize_isNormal s mark⟩
  · constructor
    · constructor
      · intro h
        rw [Synless.validateBookmark, if_neg hc] at h
        simp at h
      · intro h
        exact absurd h hc
    · intro loc hl
      rw [Synless.validateBookmark, if_neg hc] at hl
      simp at hl

/-- Witness for C7: in `demoStorage` the bookmark `BeforeNode(2)` seen from
the location `AfterNode(1)` validates, and normalizes to `AfterNode(1)`. -/
theorem c7_validate_bookmark_witness :
    (Synless.validateBookmark (Synless.after 1) (Synless.Loc.beforeNode 2)
        Synless.demoStorage).isSome = true ∧
    (Synless.Loc.afterNode 1
        = Synless.normalize Synless.demoStorage (Synless.Loc.beforeNode 2) ∧
     Synless.isNormal Synless.demoStorage (Synless.Loc.afterNode 1) = true) :=
  ⟨(c7_validate_bookmark_semantics Synless.demoStorage (Synless.after 1)
      (Synless.Loc.beforeNode 2)).1.mpr ⟨rfl, rfl⟩,
   (c7_validate_bookmark_semantics Synless.demoStorage (Synless.after 1)
      (Synless.Loc.beforeNode 2)).2 (Synless.Loc.afterNode 1) (by decide)⟩

/-! ## The command engine (§4.D of the spec; the editor crate's sources are
not under `src/`, so the engine is modelled from the spec: each primitive
either mutates the arena and location and yields a *reverse primitive*, or
fails leaving the state unchanged; group commit pushes the reverse group on
the undo stack and clears the redo stack; `Undo`/`Redo` pop one group and
apply its reverses). -/

namespace Editor

open Synless

/-- Modelled from the spec: a reversible tree-edit primitive. Each carries
the cursor location to set after it applies. `ins n p i l` inserts the
detached node `n` as the `i`-th child of `p` (covering InsertPrepend /
InsertAfter / InsertBefore at their computed indices); `del n p i l`
removes the `i`-th child `n` of `p` (Insert ↔ Delete-at-location); `rep a b
p i l` replaces the `i`-th child `a` by the detached node `b`
(`Replace(a→b) ↔ Replace(b→a)`). -/
inductive Prim where
  | ins (n p i : Nat) (l : Loc)
  | del (n p i : Nat) (l : Loc)
  | rep (a b p i : Nat) (l : Loc)
  deriving DecidableEq, Repr

/-- The mutable document state: arena plus cursor location. -/
structure EdSt where
  store : Storage
  loc : Loc

/-- Modelled from the spec: apply one primitive. On success it returns the
mutated state and the reverse primitive (which records the prior cursor);
on failure it returns `none` and no state escapes. -/
def applyPrim : Prim → EdSt → Option (EdSt × Prim)
  | Prim.ins n p i l, st =>
      match getData st.store n, getData st.store p with
      | some dn, some dp =>
          match dp.payload with
          | Payload.kids cp =>
              if dn.parent = none ∧ n ≠ p ∧ i ≤ cp.length then
                some (⟨updData (updData st.store p ⟨dp.construct, dp.parent, Payload.kids (cp.insertIdx i n)⟩) n ⟨dn.construct, some p, dn.payload⟩, l⟩, Prim.del n p i st.loc)
              else none
          | Payload.text _ => none
      | _, _ => none
  | Prim.del n p i l, st =>
      match getData st.store n, getData st.store p with
      | some dn, some dp =>
          match dp.payload with
          | Payload.kids cp =>
              if dn.parent = some p ∧ n ≠ p ∧ cp.get? i = some n then
                some (⟨updData (updData st.store p ⟨dp.construct, dp.parent, Payload.kids (cp.eraseIdx i)⟩) n ⟨dn.construct, none, dn.payload⟩, l⟩, Prim.ins n p i st.loc)
              else none
          | Payload.text _ => none
      | _, _ => none
  | Prim.rep a b p i l, st =>
      match getData st.store a, getData st.store b, getData st.store p with
      | some da, some db, some dp =>
          match dp.payload with
          | Payload.kids cp =>
              if da.parent = some p ∧ db.parent = none ∧ a ≠ p ∧ b ≠ p ∧ a ≠ b ∧ cp.get? i = some a then
                some (⟨updData (updData (updData st.store p ⟨dp.construct, dp.parent, Payload.kids (cp.set i b)⟩) a ⟨da.construct, none, da.payload⟩) b ⟨db.construct, some p, db.payload⟩, l⟩, Prim.rep b a p i st.loc)
              else none
          | Payload.text _ => none
      | _, _, _ => none

/-- Apply a group of primitives in order, collecting the reverse group
(reverses in reverse order, ready to be applied forward by `Undo`). -/
def applyGroup : List Prim → EdSt → Option (EdSt × List Prim)
  | [], st => some (st, [])
  | q :: ps, st =>
      match applyPrim q st with
      | some (st1, r) =>
          match applyGroup ps st1 with
          | some (st2, revs) => some (st2, revs ++ [r])
          | none => none
      | none => none

/-- A document per the spec: arena, cursor, undo stack and redo stack of
reversible groups. -/
structure Doc where
  store : Storage
  loc : Loc
  undo : List (List Prim)
  redo : List (List Prim)

/-- Group commit: run the group; push the reverse group onto the undo
stack and clear the redo stack. -/
def execGroup (g : List Prim) (d : Doc) : Option Doc :=
  match applyGroup g ⟨d.store, d.loc⟩ with
  | some (st2, rev) => some ⟨st2.store, st2.loc, rev :: d.undo, []⟩
  | none => none

/-- `Undo`: pop one group off the undo stack, apply its reverses, push the
re-reversed group onto the redo stack. -/
def undoOne (d : Doc) : Option Doc :=
  match d.undo with
  | [] => none
  | g :: rest =>
      match applyGroup g ⟨d.store, d.loc⟩ with
      | some (st2, rev) => some ⟨st2.store, st2.loc, rest, rev :: d.redo⟩
      | none => none

/-- `Redo`: pop one group off the redo stack, apply it, push the reverse
group back onto the undo stack; fails on an empty redo stack. -/
def redoOne (d : Doc) : Option Doc :=
  match d.redo with
  | [] => none
  | g :: rest =>
      match applyGroup g ⟨d.store, d.loc⟩ with
      | some (st2, rev) => some ⟨st2.store, st2.loc, rev :: d.undo, rest⟩
      | none => none

/-- Execute a list of command groups in order. -/
def execList : List (List Prim) → Doc → Option Doc
  | [], d => some d
  | g :: gs, d => (execGroup g d).bind (execList gs)

/-- `n` consecutive undos. -/
def undoTimes : Nat → Doc → Option Doc
  | 0, d => some d
  | n + 1, d => (undoTimes n d).bind undoOne

/-- `n` consecutive redos. -/
def redoTimes : Nat → Doc → Option Doc
  | 0, d => some d
  | n + 1, d => (redoOne d).bind (redoTimes n)

theorem get?_insertIdx_self (a i : Nat) :
    ∀ (l : List Nat), i ≤ l.length → (l.insertIdx i a).get? i = some a := by
  induction i with
  | zero => intro l h; rfl
  | succ n ih =>
      intro l h
      cases l with
      | nil => exact absurd h (by simp)
      | cons x xs => exact ih xs (Nat.le_of_succ_le_succ h)

theorem insertIdx_eraseIdx_self (a i : Nat) :
    ∀ (l : List Nat), l.get? i = some a → (l.eraseIdx i).insertIdx i a = l := by
  induction i with
  | zero =>
      intro l h
      cases l with
      | nil => exact absurd h (by simp)
      | cons x xs =>
          obtain rfl : x = a := Option.some_inj.mp h
          rfl
  | succ n ih =>
      intro l h
      cases l with
      | nil => exact absurd h (by simp)
      | cons x xs =>
          show x :: (xs.eraseIdx n).insertIdx n a = x :: xs
          rw [ih xs h]

theorem set_get?_self (a i : Nat) :
    ∀ (l : List Nat), l.get? i = some a → l.set i a = l := by
  induction i with
  | zero =>
      intro l h
      cases l with
      | nil => rfl
      | cons x xs =>
          obtain rfl : x = a := Option.some_inj.mp h
          rfl
  | succ n ih =>
      intro l h
      cases l with
      | nil => rfl
      | cons x xs =>
          show x :: xs.set n a = x :: xs
          rw [ih xs h]

theorem lt_length_of_get?_eq_some {l : List Nat} {i a : Nat}
    (h : l.get? i = some a) : i < l.length := by
  by_contra hc
  rw [List.get?_eq_none.mpr (Nat.le_of_not_lt hc)] at h
  exact Option.noConfusion h

end Editor

namespace Editor

open Synless

theorem updData_updData_self (s : Storage) (n : Nat) (d e : NodeData) :
    updData (updData s n d) n e = updData s n e := by
  rw [updData, updData, updData]
  simp [Function.update_idem]

theorem updData_comm (s : Storage) (n m : Nat) (d e : NodeData) (h : n ≠ m) :
    updData (updData s n d) m e = updData (updData s m e) n d := by
  rw [updData, updData, updData, updData]
  simp only
  rw [Function.update_comm h]

theorem updData_getData_self (s : Storage) (n : Nat) (d : NodeData)
    (h : getData s n = some d) : updData s n d = s := by
  have h' : s.arena n = some d := h
  rw [updData, ← h', Function.update_eq_self]

end Editor

namespace Editor

open Synless

theorem applyPrim_inv (q : Prim) (st st' : EdSt) (r : Prim)
    (h : applyPrim q st = some (st', r)) : applyPrim r st' = some (st, q) := by
  cases q with
  | ins n p i l =>
      rw [applyPrim] at h
      split at h
      · rename_i dn dp hn hp
        split at h
        · rename_i cp hpay
          split at h
          · rename_i hc
            obtain ⟨hpar, hnp, hile⟩ := hc
            injection h with hpair
            injection hpair with h1 h2
            subst h1
            subst h2
            rw [applyPrim]
            have hs1n : getData (updData (updData st.store p ⟨dp.construct, dp.parent, Payload.kids (cp.insertIdx i n)⟩) n ⟨dn.construct, some p, dn.payload⟩) n = some ⟨dn.construct, some p, dn.payload⟩ := getData_updData_self ..
            have hs1p : getData (updData (updData st.store p ⟨dp.construct, dp.parent, Payload.kids (cp.insertIdx i n)⟩) n ⟨dn.construct, some p, dn.payload⟩) p = some ⟨dp.construct, dp.parent, Payload.kids (cp.insertIdx i n)⟩ := by
              rw [getData_updData_ne _ _ _ _ (Ne.symm hnp)]
              exact getData_updData_self ..
            simp only [hs1n, hs1p]
            rw [if_pos ⟨by trivial, hnp, get?_insertIdx_self n i cp hile⟩]
            rw [List.eraseIdx_insertIdx]
            have hdpeta : (⟨dp.construct, dp.parent, Payload.kids cp⟩ : NodeData) = dp := by rw [← hpay]
            have hdneta : (⟨dn.construct, none, dn.payload⟩ : NodeData) = dn := by rw [← hpar]
            rw [hdpeta, hdneta]
            rw [updData_comm _ _ _ _ _ hnp]
            rw [updData_updData_self, updData_updData_self]
            rw [updData_getData_self st.store p dp hp, updData_getData_self st.store n dn hn]
          · exact Option.noConfusion h
        · exact Option.noConfusion h
      · exact Option.noConfusion h
  | del n p i l =>
      rw [applyPrim] at h
      split at h
      · rename_i dn dp hn hp
        split at h
        · rename_i cp hpay
          split at h
          · rename_i hc
            obtain ⟨hpar, hnp, hget⟩ := hc
            have hlt : i < cp.length := lt_length_of_get?_eq_some hget
            injection h with hpair
            injection hpair with h1 h2
            subst h1
            subst h2
            rw [applyPrim]
            have hs1n : getData (updData (updData st.store p ⟨dp.construct, dp.parent, Payload.kids (cp.eraseIdx i)⟩) n ⟨dn.construct, none, dn.payload⟩) n = some ⟨dn.construct, none, dn.payload⟩ := getData_updData_self ..
            have hs1p : getData (updData (updData st.store p ⟨dp.construct, dp.parent, Payload.kids (cp.eraseIdx i)⟩) n ⟨dn.construct, none, dn.payload⟩) p = some ⟨dp.construct, dp.parent, Payload.kids (cp.eraseIdx i)⟩ := by
              rw [getData_updData_ne _ _ _ _ (Ne.symm hnp)]
              exact getData_updData_self ..
            simp only [hs1n, hs1p]
            have hlen : i ≤ (cp.eraseIdx i).length := by
              rw [List.length_eraseIdx, if_pos hlt]
              omega
            rw [if_pos ⟨by trivial, hnp, hlen⟩]
            rw [insertIdx_eraseIdx_self n i cp hget]
            have hdpeta : (⟨dp.construct, dp.parent, Payload.kids cp⟩ : NodeData) = dp := by rw [← hpay]
            have hdneta : (⟨dn.construct, some p, dn.payload⟩ : NodeData) = dn := by rw [← hpar]
            rw [hdpeta, hdneta]
            rw [updData_comm _ _ _ _ _ hnp]
            rw [updData_updData_self, updData_updData_self]
            rw [updData_getData_self st.store p dp hp, updData_getData_self st.store n dn hn]
          · exact Option.noConfusion h
        · exact Option.noConfusion h
      · exact Option.noConfusion h
  | rep a b p i l =>
      rw [applyPrim] at h
      split at h
      · rename_i da db dp ha hb hp
        split at h
        · rename_i cp hpay
          split at h
          · rename_i hc
            obtain ⟨hapar, hbpar, hap, hbp, hab, hget⟩ := hc
            have hlt : i < cp.length := lt_length_of_get?_eq_some hget
            injection h with hpair
            injection hpair with h1 h2
            subst h1
            subst h2
            rw [applyPrim]
            have hs3b : getData (updData (updData (updData st.store p ⟨dp.construct, dp.parent, Payload.kids (cp.set i b)⟩) a ⟨da.construct, none, da.payload⟩) b ⟨db.construct, some p, db.payload⟩) b = some ⟨db.construct, some p, db.payload⟩ := getData_updData_self ..
            have hs3a : getData (updData (updData (updData st.store p ⟨dp.construct, dp.parent, Payload.kids (cp.set i b)⟩) a ⟨da.construct, none, da.payload⟩) b ⟨db.construct, some p, db.payload⟩) a = some ⟨da.construct, none, da.payload⟩ := by
              rw [getData_updData_ne _ _ _ _ hab]
              exact getData_updData_self ..
            have hs3p : getData (updData (updData (updData st.store p ⟨dp.construct, dp.parent, Payload.kids (cp.set i b)⟩) a ⟨da.construct, none, da.payload⟩) b ⟨db.construct, some p, db.payload⟩) p = some ⟨dp.construct, dp.parent, Payload.kids (cp.set i b)⟩ := by
              rw [getData_updData_ne _ _ _ _ (Ne.symm hbp)]
              rw [getData_updData_ne _ _ _ _ (Ne.symm hap)]
              exact getData_updData_self ..
            simp only [hs3b, hs3a, hs3p]
            rw [if_pos ⟨by trivial, by trivial, hbp, hap, Ne.symm hab, List.get?_set_eq_of_lt b hlt⟩]
            rw [List.set_set, set_get?_self a i cp hget]
            have hdpeta : (⟨dp.construct, dp.parent, Payload.kids cp⟩ : NodeData) = dp := by rw [← hpay]
            have hdaeta : (⟨da.construct, some p, da.payload⟩ : NodeData) = da := by rw [← hapar]
            have hdbeta : (⟨db.construct, none, db.payload⟩ : NodeData) = db := by rw [← hbpar]
            rw [hdpeta, hdaeta, hdbeta]
            rw [updData_comm _ _ _ _ _ hbp]
            rw [updData_comm _ _ _ _ _ hap]
            rw [updData_updData_self, updData_updData_self]
            rw [updData_getData_self st.store p dp hp]
            have hbS : getData (updData st.store a ⟨da.construct, none, da.payload⟩) b = some db := by
              rw [getData_updData_ne _ _ _ _ (Ne.symm hab)]
              exact hb
            rw [updData_getData_self _ b db hbS]
            rw [updData_updData_self]
            rw [updData_getData_self st.store a da ha]
          · exact Option.noConfusion h
        · exact Option.noConfusion h
      · exact Option.noConfusion h

end Editor

namespace Editor

open Synless

theorem applyGroup_append (xs ys : List Prim) (st : EdSt) :
    applyGroup (xs ++ ys) st =
      (applyGroup xs st).bind (fun q1 =>
        (applyGroup ys q1.1).map (fun q2 => (q2.1, q2.2 ++ q1.2))) := by
  induction xs generalizing st with
  | nil =>
      rw [List.nil_append]
      show applyGroup ys st
        = (applyGroup ys st).map (fun q2 => (q2.1, q2.2 ++ []))
      cases hys : applyGroup ys st with
      | none => rfl
      | some q2 => simp
  | cons q ps ih =>
      rw [List.cons_append, applyGroup, applyGroup]
      cases hq : applyPrim q st with
      | none => rfl
      | some q1 =>
          obtain ⟨st1, r⟩ := q1
          dsimp only
          rw [ih st1]
          cases hg : applyGroup ps st1 with
          | none => rfl
          | some q2 =>
              obtain ⟨st2, revs⟩ := q2
              dsimp only
              cases hy : applyGroup ys st2 with
              | none => simp [hy]
              | some q3 =>
                  obtain ⟨st3, ry⟩ := q3
                  simp [hy, List.append_assoc]

theorem applyGroup_inv (g : List Prim) (st st' : EdSt) (rev : List Prim)
    (h : applyGroup g st = some (st', rev)) : applyGroup rev st' = some (st, g) := by
  induction g generalizing st rev with
  | nil =>
      injection h with hpair
      injection hpair with h1 h2
      subst h1
      subst h2
      rfl
  | cons q ps ih =>
      rw [applyGroup] at h
      cases hq : applyPrim q st with
      | none => rw [hq] at h; exact Option.noConfusion h
      | some q1 =>
          obtain ⟨st1, r⟩ := q1
          rw [hq] at h
          dsimp only at h
          cases hg : applyGroup ps st1 with
          | none => rw [hg] at h; exact Option.noConfusion h
          | some q2 =>
              obtain ⟨st2, revs⟩ := q2
              rw [hg] at h
              dsimp only at h
              injection h with hpair
              injection hpair with h1 h2
              subst h1
              subst h2
              rw [applyGroup_append, ih st1 revs hg]
              have hr : applyPrim r st1 = some (st, q) := applyPrim_inv q st st1 r hq
              simp [applyGroup, hr]

theorem redoOne_undoOne (d d' : Doc) (h : undoOne d = some d') : redoOne d' = some d := by
  rw [undoOne] at h
  cases hu : d.undo with
  | nil => rw [hu] at h; exact Option.noConfusion h
  | cons g rest =>
      rw [hu] at h
      dsimp only at h
      cases hg : applyGroup g ⟨d.store, d.loc⟩ with
      | none => rw [hg] at h; exact Option.noConfusion h
      | some q =>
          obtain ⟨st2, rev⟩ := q
          rw [hg] at h
          dsimp only at h
          injection h with h1
          subst h1
          show (match applyGroup rev ⟨st2.store, st2.loc⟩ with
            | some (st3, rev2) => some (⟨st3.store, st3.loc, rev2 :: rest, d.redo⟩ : Doc)
            | none => none) = some d
          have hsteta : (⟨st2.store, st2.loc⟩ : EdSt) = st2 := rfl
          rw [hsteta, applyGroup_inv g ⟨d.store, d.loc⟩ st2 rev hg]
          dsimp only
          rw [← hu]
  
theorem redoTimes_undoTimes (n : Nat) (d d' : Doc)
    (h : undoTimes n d = some d') : redoTimes n d' = some d := by
  induction n generalizing d' with
  | zero =>
      injection h with h1
      subst h1
      rfl
  | succ k ih =>
      rw [undoTimes] at h
      cases hu : undoTimes k d with
      | none => rw [hu] at h; exact Option.noConfusion h
      | some dm =>
          rw [hu, Option.some_bind] at h
          rw [redoTimes, redoOne_undoOne dm d' h, Option.some_bind]
          exact ih dm hu

theorem execList_undo (gs : List (List Prim)) (d0 dN : Doc)
    (h : execList gs d0 = some dN) :
    ∃ dU, undoTimes gs.length dN = some dU ∧
      dU.store = d0.store ∧ dU.loc = d0.loc ∧ dU.undo = d0.undo := by
  induction gs generalizing d0 with
  | nil =>
      injection h with h1
      subst h1
      exact ⟨d0, rfl, rfl, rfl, rfl⟩
  | cons g gs ih =>
      rw [execList] at h
      cases he : execGroup g d0 with
      | none => rw [he] at h; exact Option.noConfusion h
      | some d1 =>
          rw [he, Option.some_bind] at h
          obtain ⟨dU1, hU1, hst, hloc, hundo⟩ := ih d1 h
          rw [execGroup] at he
          cases hg : applyGroup g ⟨d0.store, d0.loc⟩ with
          | none => rw [hg] at he; exact Option.noConfusion he
          | some q =>
              obtain ⟨st2, rev⟩ := q
              rw [hg] at he
              dsimp only at he
              injection he with he1
              subst he1
              refine ⟨⟨d0.store, d0.loc, d0.undo, g :: dU1.redo⟩, ?_, rfl, rfl, rfl⟩
              show (undoTimes gs.length dN).bind undoOne
                = some (⟨d0.store, d0.loc, d0.undo, g :: dU1.redo⟩ : Doc)
              rw [hU1, Option.some_bind, undoOne, hundo]
              show (match applyGroup rev ⟨dU1.store, dU1.loc⟩ with
                | some (st3, rev2) => some (⟨st3.store, st3.loc, d0.undo, rev2 :: dU1.redo⟩ : Doc)
                | none => none) = some (⟨d0.store, d0.loc, d0.undo, g :: dU1.redo⟩ : Doc)
              rw [hst, hloc]
              have hsteta : (⟨st2.store, st2.loc⟩ : EdSt) = st2 := rfl
              rw [hsteta, applyGroup_inv g ⟨d0.store, d0.loc⟩ st2 rev hg]

end Editor

/-- C2: for every finite sequence `S` of command groups that all execute
successfully on a document, applying `S` and then Undo `|S|` times restores
the document's arena, cursor location and undo stack to their initial
state, and applying Redo `|S|` times afterwards restores the final
document exactly. -/
theorem c2_undo_redo_round_trip (gs : List (List Editor.Prim))
    (d0 dN : Editor.Doc) (h : Editor.execList gs d0 = some dN) :
    ∃ dU, Editor.undoTimes gs.length dN = some dU ∧
      dU.store = d0.store ∧ dU.loc = d0.loc ∧ dU.undo = d0.undo ∧
      Editor.redoTimes gs.length dU = some dN := by
  obtain ⟨dU, h1, h2, h3, h4⟩ := Editor.execList_undo gs d0 dN h
  exact ⟨dU, h1, h2, h3, h4, Editor.redoTimes_undoTimes gs.length dN dU h1⟩

namespace Editor

open Synless

/-- A demo document: listy root `0` with single child `1`; node `2` is a
detached root ready to be inserted. -/
def storeC2 : Storage := ⟨fun n =>
  if n = 0 then some ⟨⟨Arity.listy SSort.any, SSort.any, false⟩, none, Payload.kids [1]⟩
  else if n = 1 then some ⟨⟨Arity.fixed [], SSort.any, false⟩, some 0, Payload.kids []⟩
  else if n = 2 then some ⟨⟨Arity.fixed [], SSort.any, false⟩, none, Payload.kids []⟩
  else none, 3⟩

def d0C2 : Doc := ⟨storeC2, after 1, [], []⟩

/-- The document after executing `InsertAfter` of node `2` at the cursor
(one singleton group). -/
def dNC2 : Doc :=
  ⟨updData (updData storeC2 0 ⟨⟨Arity.listy SSort.any, SSort.any, false⟩, none, Payload.kids [1, 2]⟩) 2 ⟨⟨Arity.fixed [], SSort.any, false⟩, some 0, Payload.kids []⟩,
   after 2, [[Prim.del 2 0 1 (after 1)]], []⟩

end Editor

/-- Witness for C2: one InsertAfter group on the demo document, then one
Undo restores the arena, cursor and undo stack, and one Redo restores the
final document. -/
theorem c2_round_trip_witness :
    ∃ dU, Editor.undoTimes 1 Editor.dNC2 = some dU ∧
      dU.store = Editor.d0C2.store ∧ dU.loc = Editor.d0C2.loc ∧
      dU.undo = Editor.d0C2.undo ∧ Editor.redoTimes 1 dU = some Editor.dNC2 :=
  c2_undo_redo_round_trip [[Editor.Prim.ins 2 0 1 (Synless.after 2)]]
    Editor.d0C2 Editor.dNC2 rfl

/-- C8: executing Redo on a document whose redo stack is empty fails with
no state change (the operation returns no document at all), and more
generally a primitive that fails anywhere inside a group makes the whole
group execution fail, so no partially-mutated document ever escapes. -/
theorem c8_redo_on_empty_stack_fails (d : Editor.Doc) (h : d.redo = []) :
    Editor.redoOne d = none ∧
    (∀ ps prim qs st1 rev1,
      Editor.applyGroup ps ⟨d.store, d.loc⟩ = some (st1, rev1) →
      Editor.applyPrim prim st1 = none →
      Editor.applyGroup (ps ++ prim :: qs) ⟨d.store, d.loc⟩ = none) := by
  constructor
  · rw [Editor.redoOne, h]
  · intro ps prim qs st1 rev1 hps hfail
    rw [Editor.applyGroup_append, hps, Option.some_bind, Editor.applyGroup, hfail]
    rfl

/-- Witness for C8: the demo document starts with an empty redo stack, and
Redo on it fails. -/
theorem c8_redo_witness : Editor.redoOne Editor.d0C2 = none :=
  (c8_redo_on_empty_stack_fails Editor.d0C2 rfl).1
